import Mathlib

/-!
Verification of the bit-packing codecs in `src/bitpacking.py`.

The Python code works on arbitrary-precision integers; values are `Int`,
compressed streams are lists of 32-bit words modelled as `List Nat`
(Python's `&`/`|`/`<<`/`>>` on the nonnegative quantities appearing there
coincide with the `Nat` operations used below; `val & ((1 << k) - 1)` on an
arbitrary-precision integer is reduction modulo `2 ^ k`, written `% 2 ^ k`).
Operations that can raise in Python (list indexing, asserts, division by
zero, negative shifts) return `Option`.
-/

set_option maxHeartbeats 1000000

def WORD_BITS : Nat := 32

def WORD_MASK : Nat := 2 ^ 32 - 1

/-- `zigzag_encode(x) = (x << 1) ^ (x >> 31)`: Python's shift on a negative
int is arithmetic and `^` uses two's complement, exactly `Int.xor`,
`Int.instShiftLeft` and `Int.shiftRight`. -/
def zigzag_encode (x : Int) : Int := Int.xor (x <<< (1 : Int)) (x >>> (31 : Nat))

/-- `zigzag_decode(z) = (z >> 1) ^ -(z & 1)`. -/
def zigzag_decode (z : Int) : Int := Int.xor (z >>> (1 : Nat)) (-(Int.land z 1))

/-- The per-value transform shared by `PackedCross.compress` and
`PackedAligned.compress`: `val = zigzag_encode(v) if use_zigzag else v`
followed by `val &= (1 << k) - 1`, i.e. reduction modulo `2 ^ k` (a
nonnegative token, so `Int.toNat` is exact). -/
def maskVal (k : Nat) (zz : Bool) (v : Int) : Nat :=
  ((if zz then zigzag_encode v else v) % (2 ^ k : Int)).toNat

/-- The inner `while bitlen >= WORD_BITS` loop shared by the packers: each
iteration appends the low 32 bits of `bitstream` to `out` and shifts both
`bitstream` and `bitlen` down by 32.  The loop runs exactly `bitlen / 32`
times (each pass subtracts 32 and it stops below 32), which we take as the
first (structural) argument. -/
def emitWords : Nat → Nat → Nat → List Nat → Nat × Nat × List Nat
  | 0, bs, bl, out => (bs, bl, out)
  | it + 1, bs, bl, out => emitWords it (bs >>> 32) (bl - 32) (out ++ [bs &&& WORD_MASK])

/-- The `for v in arr` loop of `PackedCross.compress`; state is
`(bitstream, bitlen, out)`. -/
def PackedCross.compressLoop (k : Nat) (zz : Bool) :
    List Int → Nat → Nat → List Nat → Nat × Nat × List Nat
  | [], bs, bl, out => (bs, bl, out)
  | v :: rest, bs, bl, out =>
    let val : Nat := maskVal k zz v
    let bs1 := bs ||| (val <<< bl)
    let bl1 := bl + k
    let s := emitWords (bl1 / 32) bs1 bl1 out
    PackedCross.compressLoop k zz rest s.1 s.2.1 s.2.2

/-- `PackedCross.compress`: pack the loop result, flush a partial word, and
prepend the header `(k & 0xFFFF) | ((len(arr) & 0xFFFF) << 16)`. -/
def PackedCross.compress (k : Nat) (zz : Bool) (arr : List Int) : List Nat :=
  let s := PackedCross.compressLoop k zz arr 0 0 []
  let out := if s.2.1 ≠ 0 then s.2.2 ++ [s.1 &&& WORD_MASK] else s.2.2
  ((k &&& 0xFFFF) ||| ((arr.length &&& 0xFFFF) <<< 16)) :: out

/-- The decompression side of the optional ZigZag transform, shared by every
decompress/get: `if self.use_zigzag: val = zigzag_decode(val)` applied to an
extracted (nonnegative) token or overflow word before it is emitted. -/
def decOut (zz : Bool) (val : Nat) : Int :=
  if zz then zigzag_decode (val : Int) else (val : Int)

/-- The `while len(out) < length` loop of `PackedCross.decompress`; the first
argument is the number of values still to be produced (`length - len(out)`,
which drops by one per iteration).  `bitlen` is an `Int` because Python's
`bitlen -= k` may go below zero for a (malformed) header with `k > 32`, after
which `compressed[i_word] << bitlen` would raise; that raise is `none`. -/
def PackedCross.decompressLoop (compressed : List Nat) (k : Nat) (zz : Bool) :
    Nat → Nat → Int → Nat → Option (List Int)
  | 0, _, _, _ => some []
  | rem + 1, bs, bl, iw =>
    if bl < (k : Int) then
      if iw < compressed.length then
        if bl < 0 then none
        else
          let bs1 := bs ||| (compressed.getD iw 0 <<< bl.toNat)
          let val := bs1 &&& (2 ^ k - 1)
          (PackedCross.decompressLoop compressed k zz rem (bs1 >>> k) (bl + 32 - k) (iw + 1)).map
            (decOut zz val :: ·)
      else some []
    else
      let val := bs &&& (2 ^ k - 1)
      (PackedCross.decompressLoop compressed k zz rem (bs >>> k) (bl - k) iw).map
        (decOut zz val :: ·)

/-- `PackedCross.decompress(compressed, out)`: on an empty stream it returns
before `out.clear()`, so the prior contents `out0` survive; otherwise the
result is freshly computed from the stream.  The returned list is the final
contents of `out`. -/
def PackedCross.decompress (zz : Bool) (compressed : List Nat) (out0 : List Int) :
    Option (List Int) :=
  if compressed.isEmpty then some out0
  else
    let header := compressed.getD 0 0
    let k := header &&& 0xFFFF
    let length := (header >>> 16) &&& 0xFFFF
    PackedCross.decompressLoop compressed k zz length 0 0 1

/-- `PackedCross.get`: the `assert 0 <= idx < length` is `none` on failure;
reads past the end of the stream yield 0 as in the source. -/
def PackedCross.get (zz : Bool) (compressed : List Nat) (idx : Nat) : Option Int :=
  match compressed with
  | [] => none
  | header :: _ =>
    let k := header &&& 0xFFFF
    let length := (header >>> 16) &&& 0xFFFF
    if idx < length then
      let bitpos := idx * k
      let word_idx := 1 + bitpos / 32
      let bit_off := bitpos % 32
      let low := compressed.getD word_idx 0
      let high := compressed.getD (word_idx + 1) 0
      let combined := (low ||| (high <<< 32)) >>> bit_off
      let val := combined &&& (2 ^ k - 1)
      some (decOut zz val)
    else none

/-- The `for v in arr` loop of `PackedAligned.compress`; state is
`(cur, used, out)` (the header word is already in `out`). -/
def PackedAligned.compressLoop (k per_word : Nat) (zz : Bool) :
    List Int → Nat → Nat → List Nat → Nat × Nat × List Nat
  | [], cur, used, out => (cur, used, out)
  | v :: rest, cur, used, out =>
    let val : Nat := maskVal k zz v
    let cur1 := cur ||| (val <<< (used * k))
    if used + 1 = per_word then
      PackedAligned.compressLoop k per_word zz rest 0 0 (out ++ [cur1 &&& WORD_MASK])
    else
      PackedAligned.compressLoop k per_word zz rest cur1 (used + 1) out

/-- `PackedAligned.compress`: header first, then ⌊32/k⌋ values per word,
flushing a partial final word. -/
def PackedAligned.compress (k : Nat) (zz : Bool) (arr : List Int) : List Nat :=
  let per_word := WORD_BITS / k
  let header := (k &&& 0xFFFF) ||| ((arr.length &&& 0xFFFF) <<< 16)
  let s := PackedAligned.compressLoop k per_word zz arr 0 0 [header]
  if s.2.1 ≠ 0 then s.2.2 ++ [s.1 &&& WORD_MASK] else s.2.2

/-- The `for j in range(per_word)` loop of `PackedAligned.decompress`: extract
up to `per_word` values from the word `cur`, stopping once `length` values
exist.  The source's `if k and val is not None` guard is kept (its second
conjunct is vacuous). -/
def PackedAligned.decompressWord (k : Nat) (zz : Bool) (length : Nat) :
    Nat → Nat → List Int → List Int
  | 0, _, out => out
  | j + 1, cur, out =>
    if length ≤ out.length then out
    else
      let val := cur &&& (2 ^ k - 1)
      PackedAligned.decompressWord k zz length j (cur >>> k)
        (if k ≠ 0 then out ++ [decOut zz val] else out)

/-- The `while len(out) < length and i < len(compressed)` loop of
`PackedAligned.decompress`, with the words `compressed[i:]` still to be
visited as the structural argument. -/
def PackedAligned.decompressLoop (k per_word : Nat) (zz : Bool) (length : Nat) :
    List Nat → List Int → List Int
  | [], out => out
  | w :: ws, out =>
    if out.length < length then
      PackedAligned.decompressLoop k per_word zz length ws
        (PackedAligned.decompressWord k zz length per_word w out)
    else out

/-- `PackedAligned.decompress`: `compressed[0]` raises on an empty stream and
`WORD_BITS // k` raises when the header's `k` field is zero; both are `none`.
The returned list is the final contents of `out` (cleared, then filled). -/
def PackedAligned.decompress (zz : Bool) (compressed : List Nat) (out0 : List Int) :
    Option (List Int) :=
  match compressed with
  | [] => none
  | header :: body =>
    let k := header &&& 0xFFFF
    let length := (header >>> 16) &&& 0xFFFF
    if k = 0 then none
    else
      let per_word := WORD_BITS / k
      some (PackedAligned.decompressLoop k per_word zz length body [])

/-- `PackedAligned.get`: `none` on an empty stream, a zero `k` field
(`WORD_BITS // k` raises), an assert failure, or a `k` field above 32
(`per_word = 0`, so `idx // per_word` raises ZeroDivisionError); a
`word_idx` past the end returns 0 as in the source. -/
def PackedAligned.get (zz : Bool) (compressed : List Nat) (idx : Nat) : Option Int :=
  match compressed with
  | [] => none
  | header :: _ =>
    let k := header &&& 0xFFFF
    let length := (header >>> 16) &&& 0xFFFF
    if k = 0 then none
    else
      let per_word := WORD_BITS / k
      if idx < length then
        if per_word = 0 then none
        else
        let word_idx := 1 + idx / per_word
        let pos_in_word := idx % per_word
        if compressed.length ≤ word_idx then some 0
        else
          let cur := compressed.getD word_idx 0
          let val := (cur >>> (pos_in_word * k)) &&& (2 ^ k - 1)
          some (decOut zz val)
      else none

/-- The inner `while bitlen >= WORD_BITS` flush loop of
`OverflowPacking.compress`.  Unlike cross/aligned, this bitstream is a raw
Python int that can be **negative** (an inline token below the escape
threshold is ORed in without masking), so the state is an `Int`:
`bitstream & WORD_MASK` is always nonnegative (Python's `&` with a
nonnegative mask), hence the emitted word is stored via `toNat` exactly,
and `>>` is Python's arithmetic right shift, which is `Int`'s. -/
def emitWordsI : Nat → Int → Nat → List Nat → Int × Nat × List Nat
  | 0, bs, bl, out => (bs, bl, out)
  | it + 1, bs, bl, out =>
    emitWordsI it (bs >>> (32 : Nat)) (bl - 32)
      (out ++ [(Int.land bs (WORD_MASK : Int)).toNat])

/-- The `for v in arr` loop of `OverflowPacking.compress`; state is
`(bitstream, bitlen, out_main, overflow)`.  The token comparison
`val <= mask` happens on the (possibly negative) integer, and the token is
ORed into the bitstream **unmasked** — a negative inline value floods the
bitstream with its two's-complement bits — so the bitstream is an `Int`.
An escaping value satisfies `val > 2^small_k - 2 ≥ -1`, hence is
nonnegative and `val.toNat` stores it in the tail exactly. -/
def OverflowPacking.compressLoop (small_k : Nat) (zz : Bool) :
    List Int → Int → Nat → List Nat → List Nat → Int × Nat × List Nat × List Nat
  | [], bs, bl, out_main, overflow => (bs, bl, out_main, overflow)
  | v :: rest, bs, bl, out_main, overflow =>
    let val : Int := if zz then zigzag_encode v else v
    let token : Int :=
      if val ≤ (2 ^ small_k : Int) - 2 then val else (2 ^ small_k : Int) - 1
    let overflow1 :=
      if val ≤ (2 ^ small_k : Int) - 2 then overflow else overflow ++ [val.toNat]
    let bs1 := Int.lor bs (token <<< (bl : Int))
    let bl1 := bl + small_k
    let s := emitWordsI (bl1 / 32) bs1 bl1 out_main
    OverflowPacking.compressLoop small_k zz rest s.1 s.2.1 s.2.2 overflow1

/-- `OverflowPacking.compress`: tokens packed exactly as in cross mode at
width `small_k`, header `small_k | (len(arr) & 0xFFFF) << 8 |
(len(overflow) & 0xFF) << 24`, then the overflow words.  The flushed
partial word `bitstream & WORD_MASK` is nonnegative, stored via `toNat`. -/
def OverflowPacking.compress (small_k : Nat) (zz : Bool) (arr : List Int) : List Nat :=
  let s := OverflowPacking.compressLoop small_k zz arr 0 0 [] []
  let out_main :=
    if s.2.1 ≠ 0 then s.2.2.1 ++ [(Int.land s.1 (WORD_MASK : Int)).toNat] else s.2.2.1
  let overflow := s.2.2.2
  let header0 :=
    (small_k &&& 0xFF) ||| ((arr.length &&& 0xFFFF) <<< 8) ||| ((overflow.length &&& 0xFF) <<< 24)
  header0 :: (out_main ++ overflow)

/-- Specification-side restatement of the overflow compress loop with a
`Nat` bitstream.  When every (transformed) input value is nonnegative the
source loop never goes negative and agrees with this one
(`overflowCompressLoop_natCast`); the closed form below is proved against
this restatement. -/
def ovPackLoop (small_k : Nat) (zz : Bool) :
    List Int → Nat → Nat → List Nat → List Nat → Nat × Nat × List Nat × List Nat
  | [], bs, bl, out_main, overflow => (bs, bl, out_main, overflow)
  | v :: rest, bs, bl, out_main, overflow =>
    let val : Int := if zz then zigzag_encode v else v
    let token : Nat :=
      if val ≤ (2 ^ small_k : Int) - 2 then val.toNat else 2 ^ small_k - 1
    let overflow1 :=
      if val ≤ (2 ^ small_k : Int) - 2 then overflow else overflow ++ [val.toNat]
    let bs1 := bs ||| (token <<< bl)
    let bl1 := bl + small_k
    let s := emitWords (bl1 / 32) bs1 bl1 out_main
    ovPackLoop small_k zz rest s.1 s.2.1 s.2.2 overflow1

/-- The `while len(out) < length` loop of `OverflowPacking.decompress`.
State: remaining count, `bitstream`, `bitlen` (an `Int`, as in the cross
loop), `i_word`, and the moving `overflow_idx` (the source compares
`i_word < overflow_idx` against the mutated index).  After the optional
refill a token is extracted and either taken inline or replaced by the next
overflow word; the refill `compressed[i_word]` raises IndexError when
`i_word` is below `overflow_idx` but past the stream end, and so does the
tail read `compressed[overflow_idx]`; both are `none`. -/
def OverflowPacking.decompressLoop (compressed : List Nat) (small_k : Nat) (zz : Bool) :
    Nat → Nat → Int → Nat → Nat → Option (List Int)
  | 0, _, _, _, _ => some []
  | rem + 1, bs, bl, iw, oidx =>
    if bl < (small_k : Int) then
      if iw < oidx then
        if compressed.length ≤ iw then none
        else if bl < 0 then none
        else
          let bs1 := bs ||| (compressed.getD iw 0 <<< bl.toNat)
          let token := bs1 &&& (2 ^ small_k - 1)
          if token = 2 ^ small_k - 1 then
            if oidx < compressed.length then
              let real := compressed.getD oidx 0
              (OverflowPacking.decompressLoop compressed small_k zz rem (bs1 >>> small_k)
                (bl + 32 - small_k) (iw + 1) (oidx + 1)).map (decOut zz real :: ·)
            else none
          else
            (OverflowPacking.decompressLoop compressed small_k zz rem (bs1 >>> small_k)
              (bl + 32 - small_k) (iw + 1) oidx).map (decOut zz token :: ·)
      else some []
    else
      let token := bs &&& (2 ^ small_k - 1)
      if token = 2 ^ small_k - 1 then
        if oidx < compressed.length then
          let real := compressed.getD oidx 0
          (OverflowPacking.decompressLoop compressed small_k zz rem (bs >>> small_k)
            (bl - small_k) iw (oidx + 1)).map (decOut zz real :: ·)
        else none
      else
        (OverflowPacking.decompressLoop compressed small_k zz rem (bs >>> small_k)
          (bl - small_k) iw oidx).map (decOut zz token :: ·)

/-- `OverflowPacking.decompress`: early return (no clear) on an empty stream;
otherwise header fields are read and the loop starts at
`overflow_idx = 1 + max(0, ceil(length * small_k / 32))`. -/
def OverflowPacking.decompress (zz : Bool) (compressed : List Nat) (out0 : List Int) :
    Option (List Int) :=
  if compressed.isEmpty then some out0
  else
    let header0 := compressed.getD 0 0
    let small_k := header0 &&& 0xFF
    let length := (header0 >>> 8) &&& 0xFFFF
    let overflow_idx := 1 + max 0 ((length * small_k + WORD_BITS - 1) / WORD_BITS)
    OverflowPacking.decompressLoop compressed small_k zz length 0 0 1 overflow_idx

/-- The token-extraction formula of `OverflowPacking.get`, shared by the
direct read and the `for i in range(idx)` scan. -/
def OverflowPacking.tokenAt (compressed : List Nat) (small_k i : Nat) : Nat :=
  let bpos := i * small_k
  let w := 1 + bpos / 32
  let bo := bpos % 32
  let lw := compressed.getD w 0
  let hw := compressed.getD (w + 1) 0
  ((lw ||| (hw <<< 32)) >>> bo) &&& (2 ^ small_k - 1)

/-- The `for i in range(idx)` scan of `OverflowPacking.get`, counting earlier
escape tokens. -/
def OverflowPacking.scanCount (compressed : List Nat) (small_k : Nat) : Nat → Nat
  | 0 => 0
  | i + 1 =>
    OverflowPacking.scanCount compressed small_k i +
      if OverflowPacking.tokenAt compressed small_k i = 2 ^ small_k - 1 then 1 else 0

/-- `OverflowPacking.get`: the assert is `none` on failure, as is the
IndexError from `compressed[overflow_start + count]`. -/
def OverflowPacking.get (zz : Bool) (compressed : List Nat) (idx : Nat) : Option Int :=
  match compressed with
  | [] => none
  | header0 :: _ =>
    let small_k := header0 &&& 0xFF
    let length := (header0 >>> 8) &&& 0xFFFF
    if idx < length then
      let token := OverflowPacking.tokenAt compressed small_k idx
      if token = 2 ^ small_k - 1 then
        let count := OverflowPacking.scanCount compressed small_k idx
        let overflow_start := 1 + (length * small_k + WORD_BITS - 1) / WORD_BITS
        if overflow_start + count < compressed.length then
          let real := compressed.getD (overflow_start + count) 0
          some (decOut zz real)
        else none
      else some (decOut zz token)
    else none

/-! ### Specification-side helpers (closed forms used to reason about the loops) -/

/-- Little-endian base-`2 ^ k` recomposition of a token list: token `j`
occupies bits `[j * k, (j + 1) * k)`. -/
def packLE (k : Nat) : List Nat → Nat
  | [] => 0
  | t :: ts => t + 2 ^ k * packLE k ts

/-- The `m` low 32-bit words of `N`, least significant first. -/
def wordsOf : Nat → Nat → List Nat
  | _, 0 => []
  | N, m + 1 => (N % 2 ^ 32) :: wordsOf (N / 2 ^ 32) m

/-- Extract `r` successive `k`-bit tokens from the low bits of `S`. -/
def extractToks (k : Nat) : Nat → Nat → List Nat
  | 0, _ => []
  | r + 1, S => (S % 2 ^ k) :: extractToks k r (S / 2 ^ k)

/-- The aligned body layout: groups of `p` tokens per word (the last group
may be short).  For `p ≥ 1` the recursion consumes exactly `p` tokens per
word. -/
def alignedWords (k p : Nat) : List Nat → List Nat
  | [] => []
  | t :: ts => packLE k ((t :: ts).take p) :: alignedWords k p (ts.drop (p - 1))
termination_by l => l.length
decreasing_by simp; omega

/-- The value each input contributes to the overflow token stream:
`val` itself when `val <= (1 << small_k) - 2`, the reserved all-ones token
otherwise. -/
def ovTokens (small_k : Nat) (zz : Bool) (arr : List Int) : List Nat :=
  arr.map fun v =>
    let val : Int := if zz then zigzag_encode v else v
    if val ≤ (2 ^ small_k : Int) - 2 then val.toNat else 2 ^ small_k - 1

/-- The overflow tail: the (ZigZag-transformed) values exceeding
`(1 << small_k) - 2`, in order of appearance. -/
def ovEscapes (small_k : Nat) (zz : Bool) (arr : List Int) : List Nat :=
  ((arr.map fun v => if zz then zigzag_encode v else v).filter
    fun val => (2 ^ small_k : Int) - 2 < val).map Int.toNat

/-- Reassemble overflow-mode values from the token list and the overflow
tail; `none` when the tail is too short (the code's IndexError). -/
def unescape (zz : Bool) (small_k : Nat) : List Nat → List Nat → Option (List Int)
  | [], _ => some []
  | t :: ts, ov =>
    if t = 2 ^ small_k - 1 then
      match ov with
      | [] => none
      | r :: ov1 => (unescape zz small_k ts ov1).map (decOut zz r :: ·)
    else (unescape zz small_k ts ov).map (decOut zz t :: ·)

/-- Admissibility of a value for cross/aligned packing at width `k`
(spec §3: it must fit in `k` bits after the optional sign transform, which
operates on 32-bit integers). -/
def fitsVal (k : Nat) (zz : Bool) (v : Int) : Prop :=
  if zz then -(2 ^ 31) ≤ v ∧ v < 2 ^ 31 ∧ zigzag_encode v < (2 ^ k : Int)
  else 0 ≤ v ∧ v < (2 ^ k : Int)

/-- Admissibility of a value for overflow packing (spec §3: arbitrary 32-bit
values; signed 32-bit range when ZigZag is enabled). -/
def fitsOv (zz : Bool) (v : Int) : Prop :=
  if zz then -(2 ^ 31) ≤ v ∧ v < 2 ^ 31 else 0 ≤ v ∧ v < (2 ^ 32 : Int)

/-! ### Bridge lemmas: the bitwise operations as arithmetic -/

theorem lor_shiftLeft_eq_add {a : Nat} (b n : Nat) (h : a < 2 ^ n) :
    a ||| (b <<< n) = a + b * 2 ^ n := by
  rw [Nat.shiftLeft_eq, Nat.lor_comm, Nat.mul_comm b (2 ^ n), ← Nat.mul_add_lt_is_or h]
  ring

theorem and_mask_eq_mod (a k : Nat) : a &&& (2 ^ k - 1) = a % 2 ^ k :=
  Nat.and_pow_two_sub_one_eq_mod a k

/-! ### ZigZag: characterization and round trip -/

theorem zigzag_encode_natCast (m : Nat) (h : m < 2 ^ 31) :
    zigzag_encode (m : Int) = ((2 * m : Nat) : Int) := by
  unfold zigzag_encode
  have h1 : (m : Int) <<< (1 : Int) = ((m <<< 1 : Nat) : Int) := by
    exact_mod_cast Int.shiftLeft_coe_nat m 1
  have h2 : (m : Int) >>> (31 : Nat) = ((m >>> 31 : Nat) : Int) := rfl
  have h3 : m >>> 31 = 0 := by
    rw [Nat.shiftRight_eq_div_pow]; exact Nat.div_eq_of_lt h
  rw [h1, h2, h3]
  show (((m <<< 1) ^^^ 0 : Nat) : Int) = _
  rw [Nat.xor_zero, Nat.shiftLeft_eq, Nat.mul_comm, pow_one]

theorem zigzag_encode_negSucc (m : Nat) (h : m < 2 ^ 31) :
    zigzag_encode (Int.negSucc m) = ((2 * m + 1 : Nat) : Int) := by
  unfold zigzag_encode
  have h1 : Int.negSucc m <<< (1 : Int) = Int.negSucc (Nat.shiftLeft' true m 1) := by
    exact_mod_cast Int.shiftLeft_negSucc m 1
  have h2 : Int.negSucc m >>> (31 : Nat) = Int.negSucc (m >>> 31) := rfl
  have h3 : m >>> 31 = 0 := by
    rw [Nat.shiftRight_eq_div_pow]; exact Nat.div_eq_of_lt h
  rw [h1, h2, h3]
  show ((Nat.shiftLeft' true m 1 ^^^ 0 : Nat) : Int) = _
  rw [Nat.xor_zero, Nat.shiftLeft']
  simp [Nat.bit, Nat.shiftLeft']

theorem zigzag_decode_even (m : Nat) : zigzag_decode ((2 * m : Nat) : Int) = (m : Int) := by
  unfold zigzag_decode
  have h2 : ((2 * m : Nat) : Int) >>> (1 : Nat) = ((2 * m) >>> 1 : Nat) := rfl
  have h3 : (2 * m) >>> 1 = m := by
    rw [Nat.shiftRight_eq_div_pow, pow_one]; omega
  have h4 : Int.land ((2 * m : Nat) : Int) 1 = (((2 * m) &&& 1 : Nat) : Int) := rfl
  have h5 : (2 * m) &&& 1 = 0 := by rw [Nat.and_one_is_mod]; omega
  rw [h2, h3, h4, h5]
  show (((m ^^^ 0 : Nat)) : Int) = _
  rw [Nat.xor_zero]

theorem zigzag_decode_odd (m : Nat) :
    zigzag_decode ((2 * m + 1 : Nat) : Int) = Int.negSucc m := by
  unfold zigzag_decode
  have h2 : ((2 * m + 1 : Nat) : Int) >>> (1 : Nat) = ((2 * m + 1) >>> 1 : Nat) := rfl
  have h3 : (2 * m + 1) >>> 1 = m := by
    rw [Nat.shiftRight_eq_div_pow, pow_one]; omega
  have h4 : Int.land ((2 * m + 1 : Nat) : Int) 1 = (((2 * m + 1) &&& 1 : Nat) : Int) := rfl
  have h5 : (2 * m + 1) &&& 1 = 1 := by rw [Nat.and_one_is_mod]; omega
  rw [h2, h3, h4, h5]
  show Int.xor (m : Int) (-(1 : Int)) = _
  show Int.xor (m : Int) (Int.negSucc 0) = _
  show Int.negSucc (m ^^^ 0) = _
  rw [Nat.xor_zero]

/-- `decode ∘ encode = id` on the signed 32-bit range. -/
theorem zigzag_decode_encode (x : Int) (h1 : -(2 ^ 31) ≤ x) (h2 : x < 2 ^ 31) :
    zigzag_decode (zigzag_encode x) = x := by
  cases x with
  | ofNat m =>
    have hm : m < 2 ^ 31 := by
      rw [Int.ofNat_eq_natCast] at h2; exact_mod_cast h2
    rw [Int.ofNat_eq_natCast, zigzag_encode_natCast m hm, zigzag_decode_even]
  | negSucc m =>
    have hm : m < 2 ^ 31 := by
      have : (Int.negSucc m) = -((m : Int) + 1) := rfl
      omega
    rw [zigzag_encode_negSucc m hm, zigzag_decode_odd]

theorem zigzag_encode_nonneg (x : Int) (h1 : -(2 ^ 31) ≤ x) (h2 : x < 2 ^ 31) :
    0 ≤ zigzag_encode x := by
  cases x with
  | ofNat m =>
    have hm : m < 2 ^ 31 := by
      rw [Int.ofNat_eq_natCast] at h2; exact_mod_cast h2
    rw [Int.ofNat_eq_natCast, zigzag_encode_natCast m hm]
    exact Int.natCast_nonneg _
  | negSucc m =>
    have hm : m < 2 ^ 31 := by
      have : (Int.negSucc m) = -((m : Int) + 1) := rfl
      omega
    rw [zigzag_encode_negSucc m hm]
    exact Int.natCast_nonneg _

theorem maskVal_lt (k : Nat) (zz : Bool) (v : Int) : maskVal k zz v < 2 ^ k := by
  unfold maskVal
  have hpos : (0 : Int) < 2 ^ k := by positivity
  have h1 := Int.emod_lt_of_pos (if zz then zigzag_encode v else v) hpos
  have h2 : ((2 ^ k : Nat) : Int) = (2 ^ k : Int) := by push_cast; ring
  omega

/-- On admissible values the mask is the identity and the decompression-side
transform inverts the compression-side one. -/
theorem decOut_maskVal (k : Nat) (zz : Bool) (v : Int) (h : fitsVal k zz v) :
    decOut zz (maskVal k zz v) = v := by
  unfold fitsVal at h
  unfold decOut maskVal
  cases zz with
  | false =>
    simp only [if_false, Bool.false_eq_true] at h ⊢
    obtain ⟨h0, h1⟩ := h
    rw [Int.emod_eq_of_lt h0 h1, Int.toNat_of_nonneg h0]
  | true =>
    simp only [if_true] at h ⊢
    obtain ⟨h0, h1, h2⟩ := h
    have he : 0 ≤ zigzag_encode v := zigzag_encode_nonneg v h0 h1
    rw [Int.emod_eq_of_lt he h2, Int.toNat_of_nonneg he]
    exact zigzag_decode_encode v h0 h1

/-- C6: for every 32-bit signed integer `x` in `[-2^31, 2^31 - 1]`,
`zigzag_decode (zigzag_encode x) = x`. -/
theorem claim_C6 (x : Int) (h1 : -(2 ^ 31) ≤ x) (h2 : x ≤ 2 ^ 31 - 1) :
    zigzag_decode (zigzag_encode x) = x :=
  zigzag_decode_encode x h1 (by omega)

theorem claim_C6_witness :
    (-(2 ^ 31) ≤ (-5 : Int) ∧ (-5 : Int) ≤ 2 ^ 31 - 1) ∧
      zigzag_decode (zigzag_encode (-5)) = -5 :=
  ⟨⟨by decide, by decide⟩, claim_C6 (-5) (by decide) (by decide)⟩

/-! ### packLE / wordsOf / extractToks -/

theorem packLE_lt (k : Nat) (toks : List Nat) (h : ∀ t ∈ toks, t < 2 ^ k) :
    packLE k toks < 2 ^ (k * toks.length) := by
  induction toks with
  | nil => simp [packLE]
  | cons t ts ih =>
    have ht : t < 2 ^ k := h t (List.mem_cons_self t ts)
    have hts := ih fun x hx => h x (List.mem_cons_of_mem t hx)
    simp only [packLE, List.length_cons]
    calc t + 2 ^ k * packLE k ts < 2 ^ k + 2 ^ k * packLE k ts := by omega
      _ = 2 ^ k * (packLE k ts + 1) := by ring
      _ ≤ 2 ^ k * 2 ^ (k * ts.length) := Nat.mul_le_mul_left _ (by omega)
      _ = 2 ^ (k * (ts.length + 1)) := by rw [← pow_add]; congr 1; ring

theorem extractToks_zero (k : Nat) (r : Nat) : extractToks k r 0 = List.replicate r 0 := by
  induction r with
  | zero => rfl
  | succ r ih => simp [extractToks, ih, List.replicate_succ]

theorem extractToks_packLE (k : Nat) (toks : List Nat) (h : ∀ t ∈ toks, t < 2 ^ k) :
    ∀ r, toks.length ≤ r →
      extractToks k r (packLE k toks) = toks ++ List.replicate (r - toks.length) 0 := by
  induction toks with
  | nil => intro r _; simp [packLE, extractToks_zero]
  | cons t ts ih =>
    intro r hr
    match r, hr with
    | r + 1, hr =>
      have ht : t < 2 ^ k := h t (List.mem_cons_self t ts)
      simp only [extractToks, packLE]
      have hmod : (t + 2 ^ k * packLE k ts) % 2 ^ k = t := by
        rw [Nat.add_mul_mod_self_left, Nat.mod_eq_of_lt ht]
      have hdiv : (t + 2 ^ k * packLE k ts) / 2 ^ k = packLE k ts := by
        rw [Nat.add_mul_div_left _ _ (Nat.two_pow_pos k), Nat.div_eq_of_lt ht, Nat.zero_add]
      rw [hmod, hdiv, ih (fun x hx => h x (List.mem_cons_of_mem t hx)) r (by simpa using hr)]
      simp [List.length_cons]

theorem wordsOf_length (N m : Nat) : (wordsOf N m).length = m := by
  induction m generalizing N with
  | zero => rfl
  | succ m ih => simp [wordsOf, ih]

theorem wordsOf_mem_lt (N m : Nat) : ∀ w ∈ wordsOf N m, w < 2 ^ 32 := by
  induction m generalizing N with
  | zero => intro w hw; simp [wordsOf] at hw
  | succ m ih =>
    intro w hw
    simp only [wordsOf, List.mem_cons] at hw
    rcases hw with h | h
    · subst h; exact Nat.mod_lt _ (by norm_num)
    · exact ih _ w h

theorem packLE_wordsOf (N m : Nat) : packLE 32 (wordsOf N m) = N % 2 ^ (32 * m) := by
  induction m generalizing N with
  | zero => simp [wordsOf, packLE, Nat.mod_one]
  | succ m ih =>
    simp only [wordsOf, packLE, ih]
    have : (2 : Nat) ^ (32 * (m + 1)) = 2 ^ 32 * 2 ^ (32 * m) := by
      rw [← pow_add]; congr 1; ring
    rw [this, Nat.mod_mul]

theorem wordsOf_append (q1 q2 : Nat) :
    ∀ N, wordsOf N (q1 + q2) = wordsOf N q1 ++ wordsOf (N / 2 ^ (32 * q1)) q2 := by
  induction q1 with
  | zero => intro N; simp [wordsOf]
  | succ q1 ih =>
    intro N
    have hadd : q1 + 1 + q2 = (q1 + q2) + 1 := by omega
    have hdiv : N / 2 ^ 32 / 2 ^ (32 * q1) = N / 2 ^ (32 * (q1 + 1)) := by
      rw [Nat.div_div_eq_div_mul, ← pow_add]
      have h32 : 32 + 32 * q1 = 32 * (q1 + 1) := by ring
      rw [h32]
    calc wordsOf N (q1 + 1 + q2)
        = N % 2 ^ 32 :: wordsOf (N / 2 ^ 32) (q1 + q2) := by rw [hadd]; rfl
      _ = N % 2 ^ 32 ::
            (wordsOf (N / 2 ^ 32) q1 ++ wordsOf (N / 2 ^ 32 / 2 ^ (32 * q1)) q2) := by
          rw [ih]
      _ = (N % 2 ^ 32 :: wordsOf (N / 2 ^ 32) q1) ++ wordsOf (N / 2 ^ (32 * (q1 + 1))) q2 := by
          rw [hdiv, List.cons_append]
      _ = wordsOf N (q1 + 1) ++ wordsOf (N / 2 ^ (32 * (q1 + 1))) q2 := rfl

theorem wordsOf_congr_mod (m : Nat) :
    ∀ a b, a % 2 ^ (32 * m) = b % 2 ^ (32 * m) → wordsOf a m = wordsOf b m := by
  induction m with
  | zero => intro a b _; rfl
  | succ m ih =>
    intro a b hab
    have hsplit : (2 : Nat) ^ (32 * (m + 1)) = 2 ^ 32 * 2 ^ (32 * m) := by
      rw [← pow_add]; congr 1; ring
    rw [hsplit] at hab
    have h1 : a % 2 ^ 32 = b % 2 ^ 32 := by
      rw [← Nat.mod_mul_right_mod a (2 ^ 32) (2 ^ (32 * m)), hab, Nat.mod_mul_right_mod]
    have h2 : a / 2 ^ 32 % 2 ^ (32 * m) = b / 2 ^ 32 % 2 ^ (32 * m) := by
      rw [← Nat.mod_mul_right_div_self a (2 ^ 32) (2 ^ (32 * m)), hab,
        Nat.mod_mul_right_div_self]
    simp only [wordsOf, h1, ih _ _ h2]

/-! ### The cross packing loop in closed form -/

theorem emitWords_eq (j : Nat) : ∀ bs bl out,
    emitWords j bs bl out = (bs / 2 ^ (32 * j), bl - 32 * j, out ++ wordsOf bs j) := by
  induction j with
  | zero => intro bs bl out; simp [emitWords, wordsOf]
  | succ j ih =>
    intro bs bl out
    simp only [emitWords, ih]
    have h1 : bs >>> 32 = bs / 2 ^ 32 := Nat.shiftRight_eq_div_pow bs 32
    have h2 : bs &&& WORD_MASK = bs % 2 ^ 32 := and_mask_eq_mod bs 32
    have h3 : bs / 2 ^ 32 / 2 ^ (32 * j) = bs / 2 ^ (32 * (j + 1)) := by
      rw [Nat.div_div_eq_div_mul, ← pow_add]
      congr 2
      ring
    have h4 : bl - 32 - 32 * j = bl - 32 * (j + 1) := by omega
    have h5 : wordsOf bs (j + 1) = bs % 2 ^ 32 :: wordsOf (bs / 2 ^ 32) j := rfl
    rw [h1, h2, h3, h4, h5]
    simp

/-- The `PackedCross.compress` loop in closed form: given the running
invariant `bitstream < 2 ^ bitlen`, `bitlen < 32`, the final state packs
`bitstream` followed by the masked tokens, splits off the full 32-bit words
and keeps the remainder. -/
theorem crossCompressLoop_eq (k : Nat) (zz : Bool) (arr : List Int) :
    ∀ bs bl out, bs < 2 ^ bl → bl < 32 →
      PackedCross.compressLoop k zz arr bs bl out =
        ((bs + 2 ^ bl * packLE k (arr.map (maskVal k zz))) /
            2 ^ (32 * ((bl + arr.length * k) / 32)),
          (bl + arr.length * k) % 32,
          out ++ wordsOf (bs + 2 ^ bl * packLE k (arr.map (maskVal k zz)))
            ((bl + arr.length * k) / 32)) := by
  induction arr with
  | nil =>
    intro bs bl out hbs hbl
    simp only [PackedCross.compressLoop, List.map_nil, packLE, List.length_nil]
    have h0 : (bl + 0 * k) / 32 = 0 := by omega
    have h1 : (bl + 0 * k) % 32 = bl := by omega
    rw [h0, h1]
    simp [wordsOf]
  | cons v rest ih =>
    intro bs bl out hbs hbl
    have hval : maskVal k zz v < 2 ^ k := maskVal_lt k zz v
    have hbs1 : bs ||| (maskVal k zz v <<< bl) = bs + maskVal k zz v * 2 ^ bl :=
      lor_shiftLeft_eq_add _ _ hbs
    simp only [PackedCross.compressLoop, hbs1, emitWords_eq]
    have hmod32 : bl + k - 32 * ((bl + k) / 32) = (bl + k) % 32 := by omega
    rw [hmod32]
    have hB : bs + maskVal k zz v * 2 ^ bl < 2 ^ (bl + k) := by
      calc bs + maskVal k zz v * 2 ^ bl < 2 ^ bl + maskVal k zz v * 2 ^ bl := by omega
        _ = (maskVal k zz v + 1) * 2 ^ bl := by ring
        _ ≤ 2 ^ k * 2 ^ bl := Nat.mul_le_mul_right _ (by omega)
        _ = 2 ^ (bl + k) := by rw [← pow_add]; congr 1; ring
    have hsum : (bl + k) % 32 + 32 * ((bl + k) / 32) = bl + k := by omega
    have hbs2 : (bs + maskVal k zz v * 2 ^ bl) / 2 ^ (32 * ((bl + k) / 32)) <
        2 ^ ((bl + k) % 32) := by
      rw [Nat.div_lt_iff_lt_mul (Nat.two_pow_pos _), ← pow_add, hsum]
      exact hB
    have hbl2 : (bl + k) % 32 < 32 := Nat.mod_lt _ (by norm_num)
    rw [ih _ _ _ hbs2 hbl2]
    have hTsplit : bs + 2 ^ bl * packLE k ((v :: rest).map (maskVal k zz)) =
        bs + maskVal k zz v * 2 ^ bl +
          2 ^ (32 * ((bl + k) / 32)) *
            (2 ^ ((bl + k) % 32) * packLE k (rest.map (maskVal k zz))) := by
      simp only [List.map_cons, packLE]
      rw [← mul_assoc, ← pow_add,
        show 32 * ((bl + k) / 32) + (bl + k) % 32 = bl + k from by omega, pow_add]
      ring
    have hRk : (rest.length + 1) * k = rest.length * k + k := by ring
    have hc1 : (bs + 2 ^ bl * packLE k ((v :: rest).map (maskVal k zz))) /
        2 ^ (32 * ((bl + k) / 32)) =
        (bs + maskVal k zz v * 2 ^ bl) / 2 ^ (32 * ((bl + k) / 32)) +
          2 ^ ((bl + k) % 32) * packLE k (rest.map (maskVal k zz)) := by
      rw [hTsplit, Nat.add_mul_div_left _ _ (Nat.two_pow_pos _)]
    have hqsum : 32 * ((bl + k) / 32) +
        32 * (((bl + k) % 32 + rest.length * k) / 32) =
        32 * ((bl + (v :: rest).length * k) / 32) := by
      simp only [List.length_cons, hRk]
      omega
    have hc2 : ((bl + k) % 32 + rest.length * k) % 32 =
        (bl + (v :: rest).length * k) % 32 := by
      simp only [List.length_cons, hRk]
      omega
    have hfirst : ((bs + maskVal k zz v * 2 ^ bl) / 2 ^ (32 * ((bl + k) / 32)) +
          2 ^ ((bl + k) % 32) * packLE k (rest.map (maskVal k zz))) /
          2 ^ (32 * (((bl + k) % 32 + rest.length * k) / 32)) =
        (bs + 2 ^ bl * packLE k ((v :: rest).map (maskVal k zz))) /
          2 ^ (32 * ((bl + (v :: rest).length * k) / 32)) := by
      rw [← hc1, Nat.div_div_eq_div_mul, ← pow_add, hqsum]
    have hmodB : (bs + 2 ^ bl * packLE k ((v :: rest).map (maskVal k zz))) %
        2 ^ (32 * ((bl + k) / 32)) =
        (bs + maskVal k zz v * 2 ^ bl) % 2 ^ (32 * ((bl + k) / 32)) := by
      rw [hTsplit, Nat.add_mul_mod_self_left]
    have hwords : (out ++ wordsOf (bs + maskVal k zz v * 2 ^ bl) ((bl + k) / 32)) ++
        wordsOf ((bs + maskVal k zz v * 2 ^ bl) / 2 ^ (32 * ((bl + k) / 32)) +
          2 ^ ((bl + k) % 32) * packLE k (rest.map (maskVal k zz)))
          (((bl + k) % 32 + rest.length * k) / 32) =
        out ++ wordsOf (bs + 2 ^ bl * packLE k ((v :: rest).map (maskVal k zz)))
          ((bl + (v :: rest).length * k) / 32) := by
      rw [List.append_assoc]
      congr 1
      have hq : (bl + (v :: rest).length * k) / 32 =
          (bl + k) / 32 + ((bl + k) % 32 + rest.length * k) / 32 := by
        simp only [List.length_cons, hRk]
        omega
      rw [hq, wordsOf_append]
      congr 1
      · exact wordsOf_congr_mod _ _ _ (by rw [hmodB])
      · rw [hc1]
    rw [Prod.mk.injEq, Prod.mk.injEq]
    exact ⟨hfirst, hc2, hwords⟩

/-- `PackedCross.compress` in closed form: the header word followed by the
`⌈n·k/32⌉` words of the packed token stream. -/
theorem crossCompress_eq (k : Nat) (zz : Bool) (arr : List Int) :
    PackedCross.compress k zz arr =
      ((k &&& 0xFFFF) ||| ((arr.length &&& 0xFFFF) <<< 16)) ::
        wordsOf (packLE k (arr.map (maskVal k zz))) ((arr.length * k + 31) / 32) := by
  unfold PackedCross.compress
  rw [crossCompressLoop_eq k zz arr 0 0 [] (by norm_num) (by norm_num)]
  simp only [Nat.zero_add, zero_add, pow_zero, one_mul, List.nil_append]
  by_cases h : arr.length * k % 32 = 0
  · rw [if_neg (by simp [h])]
    have hq : (arr.length * k + 31) / 32 = arr.length * k / 32 := by omega
    rw [hq]
  · rw [if_pos (by simpa using h)]
    have hq : (arr.length * k + 31) / 32 = arr.length * k / 32 + 1 := by omega
    rw [hq, wordsOf_append (arr.length * k / 32) 1]
    congr 1
    have hone : ∀ X : Nat, wordsOf X 1 = [X % 2 ^ 32] := fun X => rfl
    have hmask : ∀ a : Nat, a &&& WORD_MASK = a % 2 ^ 32 := fun a => and_mask_eq_mod a 32
    rw [hone, hmask]

/-! ### Header arithmetic -/

theorem crossHeader_eq (k n : Nat) (hk : k < 2 ^ 16) :
    (k &&& 0xFFFF) ||| ((n &&& 0xFFFF) <<< 16) = k + n % 2 ^ 16 * 2 ^ 16 := by
  have h1 : k &&& 0xFFFF = k := by
    rw [show (0xFFFF : Nat) = 2 ^ 16 - 1 from rfl, and_mask_eq_mod, Nat.mod_eq_of_lt hk]
  have h2 : n &&& 0xFFFF = n % 2 ^ 16 := by
    rw [show (0xFFFF : Nat) = 2 ^ 16 - 1 from rfl, and_mask_eq_mod]
  rw [h1, h2, lor_shiftLeft_eq_add _ _ hk]

theorem field_low (a b m : Nat) (ha : a < 2 ^ m) : (a + b * 2 ^ m) &&& (2 ^ m - 1) = a := by
  rw [and_mask_eq_mod, Nat.add_mul_mod_self_right, Nat.mod_eq_of_lt ha]

theorem field_shift (a b m : Nat) (ha : a < 2 ^ m) : (a + b * 2 ^ m) >>> m = b := by
  rw [Nat.shiftRight_eq_div_pow, Nat.add_mul_div_right _ _ (Nat.two_pow_pos m),
    Nat.div_eq_of_lt ha, Nat.zero_add]

/-! ### The cross decompression loop in closed form -/

/-- On a well-formed stream the cross decompression loop never fails and
extracts successive `k`-bit tokens of the remaining supply
`bitstream + 2 ^ bitlen * (remaining words)`. -/
theorem crossDecompressLoop_eq (l : List Nat) (k : Nat) (zz : Bool)
    (hk1 : 1 ≤ k) (hk32 : k ≤ 32) (hw : ∀ w ∈ l, w < 2 ^ 32) :
    ∀ rem bs bl iw, bs < 2 ^ bl → iw ≤ l.length →
      (rem + 1) * k ≤ bl + k + 32 * (l.length - iw) →
      PackedCross.decompressLoop l k zz rem bs (bl : Int) iw =
        some ((extractToks k rem (bs + 2 ^ bl * packLE 32 (l.drop iw))).map (decOut zz)) := by
  intro rem
  induction rem with
  | zero => intro bs bl iw _ _ _; simp [PackedCross.decompressLoop, extractToks]
  | succ rem ih =>
    intro bs bl iw hbs hiw henough
    by_cases hblk : bl < k
    · have hiwlt : iw < l.length := by
        rcases Nat.lt_or_ge iw l.length with h | h
        · exact h
        · exfalso
          have hz : l.length - iw = 0 := by omega
          rw [hz] at henough
          have : (rem + 1 + 1) * k = rem * k + k + k := by ring
          omega
      have hcast : ((bl : Int) < (k : Int)) := by exact_mod_cast hblk
      have hgetD : l.getD iw 0 = l[iw] := by
        simp [List.getD_eq_getElem?_getD, List.getElem?_eq_getElem hiwlt]
      have hwlt : l[iw] < 2 ^ 32 := hw _ (List.getElem_mem hiwlt)
      have htoNat : (bl : Int).toNat = bl := Int.toNat_ofNat bl
      have hdrop : l.drop iw = l[iw] :: l.drop (iw + 1) := List.drop_eq_getElem_cons hiwlt
      have hbs1 : bs + l[iw] * 2 ^ bl < 2 ^ (bl + 32) := by
        calc bs + l[iw] * 2 ^ bl < 2 ^ bl + l[iw] * 2 ^ bl := by omega
          _ = (l[iw] + 1) * 2 ^ bl := by ring
          _ ≤ 2 ^ 32 * 2 ^ bl := Nat.mul_le_mul_right _ (by omega)
          _ = 2 ^ (bl + 32) := by rw [← pow_add]; congr 1; ring
      have hcastbl : (bl : Int) + 32 - (k : Int) = ((bl + 32 - k : Nat) : Int) := by
        omega
      have hdivlt : (bs + l[iw] * 2 ^ bl) / 2 ^ k < 2 ^ (bl + 32 - k) := by
        rw [Nat.div_lt_iff_lt_mul (Nat.two_pow_pos _), ← pow_add]
        rw [show bl + 32 - k + k = bl + 32 from by omega]
        exact hbs1
      have hrec := ih ((bs + l[iw] * 2 ^ bl) / 2 ^ k) (bl + 32 - k) (iw + 1)
        hdivlt (by omega)
        (by
          have h1 : (rem + 1) * k = rem * k + k := by ring
          have h2 : (rem + 1 + 1) * k = rem * k + k + k := by ring
          omega)
      have hS : bs + 2 ^ bl * packLE 32 (l.drop iw) =
          bs + l[iw] * 2 ^ bl +
            2 ^ k * (2 ^ (bl + 32 - k) * packLE 32 (l.drop (iw + 1))) := by
        rw [hdrop]
        show bs + 2 ^ bl * (l[iw] + 2 ^ 32 * packLE 32 (l.drop (iw + 1))) = _
        rw [← mul_assoc, ← pow_add, show k + (bl + 32 - k) = bl + 32 from by omega, pow_add]
        ring
      have hSmod : (bs + 2 ^ bl * packLE 32 (l.drop iw)) % 2 ^ k =
          (bs + l[iw] * 2 ^ bl) % 2 ^ k := by
        rw [hS, Nat.mul_comm (2 ^ k), Nat.add_mul_mod_self_right]
      have hSdiv : (bs + 2 ^ bl * packLE 32 (l.drop iw)) / 2 ^ k =
          (bs + l[iw] * 2 ^ bl) / 2 ^ k + 2 ^ (bl + 32 - k) * packLE 32 (l.drop (iw + 1)) := by
        rw [hS, Nat.add_mul_div_left _ _ (Nat.two_pow_pos k)]
      simp only [PackedCross.decompressLoop, if_pos hcast, if_pos hiwlt,
        if_neg (not_lt.mpr (Int.natCast_nonneg bl)), htoNat, hgetD,
        lor_shiftLeft_eq_add _ _ hbs, hcastbl, Nat.shiftRight_eq_div_pow,
        and_mask_eq_mod, hrec, extractToks, hSmod, hSdiv, List.map_cons]
      rfl
    · have hcast : ¬ ((bl : Int) < (k : Int)) := by exact_mod_cast hblk
      have hk_le : k ≤ bl := by omega
      have hcastbl : (bl : Int) - (k : Int) = ((bl - k : Nat) : Int) := by
        omega
      have hdivlt : bs / 2 ^ k < 2 ^ (bl - k) := by
        rw [Nat.div_lt_iff_lt_mul (Nat.two_pow_pos _), ← pow_add]
        rw [show bl - k + k = bl from by omega]
        exact hbs
      have hrec := ih (bs / 2 ^ k) (bl - k) iw hdivlt hiw
        (by
          have h2 : (rem + 1 + 1) * k = (rem + 1) * k + k := by ring
          omega)
      have hS : bs + 2 ^ bl * packLE 32 (l.drop iw) =
          bs + 2 ^ k * (2 ^ (bl - k) * packLE 32 (l.drop iw)) := by
        rw [← mul_assoc, ← pow_add, show k + (bl - k) = bl from by omega]
      have hSmod : (bs + 2 ^ bl * packLE 32 (l.drop iw)) % 2 ^ k = bs % 2 ^ k := by
        rw [hS, Nat.mul_comm (2 ^ k), Nat.add_mul_mod_self_right]
      have hSdiv : (bs + 2 ^ bl * packLE 32 (l.drop iw)) / 2 ^ k =
          bs / 2 ^ k + 2 ^ (bl - k) * packLE 32 (l.drop iw) := by
        rw [hS, Nat.add_mul_div_left _ _ (Nat.two_pow_pos k)]
      simp only [PackedCross.decompressLoop, if_neg hcast, hcastbl,
        Nat.shiftRight_eq_div_pow, and_mask_eq_mod, hrec, extractToks, hSmod, hSdiv,
        List.map_cons]
      rfl

/-- Round trip for the cross codec, with no admissibility assumption on the
values: decompression returns the masked-and-untransformed images of the
inputs. -/
theorem crossDecompress_compress (k : Nat) (zz : Bool) (arr : List Int)
    (hk1 : 1 ≤ k) (hk32 : k ≤ 32) (hlen : arr.length ≤ 65535) (out0 : List Int) :
    PackedCross.decompress zz (PackedCross.compress k zz arr) out0 =
      some (arr.map fun v => decOut zz (maskVal k zz v)) := by
  rw [crossCompress_eq]
  have hk16 : k < 2 ^ 16 := by omega
  have hmod : arr.length % 2 ^ 16 = arr.length := Nat.mod_eq_of_lt (by omega)
  have hhdr : (k &&& 0xFFFF) ||| ((arr.length &&& 0xFFFF) <<< 16) =
      k + arr.length * 2 ^ 16 := by
    rw [crossHeader_eq k arr.length hk16, hmod]
  have hhdrlt : k + arr.length * 2 ^ 16 < 2 ^ 32 := by
    have : arr.length * 2 ^ 16 ≤ 65535 * 2 ^ 16 := Nat.mul_le_mul_right _ hlen
    omega
  rw [hhdr]
  unfold PackedCross.decompress
  rw [if_neg (by simp)]
  have hlow : ((k + arr.length * 2 ^ 16) :: wordsOf
      (packLE k (arr.map (maskVal k zz))) ((arr.length * k + 31) / 32)).getD 0 0 =
      k + arr.length * 2 ^ 16 := rfl
  have hfk : (k + arr.length * 2 ^ 16) &&& 0xFFFF = k := field_low k arr.length 16 hk16
  have hfn : ((k + arr.length * 2 ^ 16) >>> 16) &&& 0xFFFF = arr.length := by
    rw [field_shift k arr.length 16 hk16,
      show (0xFFFF : Nat) = 2 ^ 16 - 1 from rfl, and_mask_eq_mod, hmod]
  simp only [hlow, hfk, hfn]
  have hstream : ∀ w ∈ ((k + arr.length * 2 ^ 16) :: wordsOf
      (packLE k (arr.map (maskVal k zz))) ((arr.length * k + 31) / 32)), w < 2 ^ 32 := by
    intro w hwmem
    rcases List.mem_cons.mp hwmem with h | h
    · omega
    · exact wordsOf_mem_lt _ _ w h
  have hlen32 : arr.length * k ≤ 32 * ((arr.length * k + 31) / 32) := by omega
  have hzero : (0 : Int) = ((0 : Nat) : Int) := rfl
  rw [hzero, crossDecompressLoop_eq _ k zz hk1 hk32 hstream arr.length 0 0 1
    (by norm_num) (by simp [wordsOf_length])
    (by
      simp [wordsOf_length]
      have hx : (arr.length + 1) * k = arr.length * k + k := by ring
      omega)]
  have hdrop : ((k + arr.length * 2 ^ 16) :: wordsOf
      (packLE k (arr.map (maskVal k zz))) ((arr.length * k + 31) / 32)).drop 1 =
      wordsOf (packLE k (arr.map (maskVal k zz))) ((arr.length * k + 31) / 32) := rfl
  rw [hdrop, packLE_wordsOf]
  have htoklt : ∀ t ∈ arr.map (maskVal k zz), t < 2 ^ k := by
    intro t ht
    rcases List.mem_map.mp ht with ⟨v, _, hv⟩
    exact hv ▸ maskVal_lt k zz v
  have hTlt : packLE k (arr.map (maskVal k zz)) <
      2 ^ (32 * ((arr.length * k + 31) / 32)) := by
    calc packLE k (arr.map (maskVal k zz)) < 2 ^ (k * (arr.map (maskVal k zz)).length) :=
        packLE_lt k _ htoklt
      _ ≤ 2 ^ (32 * ((arr.length * k + 31) / 32)) := by
        apply Nat.pow_le_pow_right (by norm_num)
        simp only [List.length_map]
        have hx : k * arr.length = arr.length * k := Nat.mul_comm _ _
        omega
  rw [Nat.mod_eq_of_lt hTlt]
  have hext : extractToks k arr.length (0 + 2 ^ 0 * packLE k (arr.map (maskVal k zz))) =
      arr.map (maskVal k zz) := by
    rw [pow_zero, one_mul, Nat.zero_add]
    have := extractToks_packLE k (arr.map (maskVal k zz)) htoklt
      (arr.map (maskVal k zz)).length (le_refl _)
    simpa using this
  rw [hext, List.map_map]
  rfl

/-! ### Aligned codec: compress side -/

theorem packLE_append (k : Nat) (c d : List Nat) :
    packLE k (c ++ d) = packLE k c + 2 ^ (k * c.length) * packLE k d := by
  induction c with
  | nil => simp [packLE]
  | cons t ts ih =>
    have h1 : packLE k ((t :: ts) ++ d) = t + 2 ^ k * packLE k (ts ++ d) := rfl
    have h2 : packLE k (t :: ts) = t + 2 ^ k * packLE k ts := rfl
    rw [h1, h2, ih, List.length_cons,
      show k * (ts.length + 1) = k + k * ts.length from by ring, pow_add]
    ring

theorem alignedWords_nil (k p : Nat) : alignedWords k p [] = [] := by
  simp [alignedWords]

theorem alignedWords_short (k p : Nat) (l : List Nat) (h0 : l ≠ []) (hp : l.length ≤ p) :
    alignedWords k p l = [packLE k l] := by
  match l, h0 with
  | [], h0 => exact absurd rfl h0
  | t :: ts, _ =>
    rw [alignedWords]
    have h1 : (t :: ts).take p = t :: ts := List.take_of_length_le hp
    have h2 : ts.drop (p - 1) = [] := by
      apply List.drop_eq_nil_of_le
      simp at hp ⊢
      omega
    rw [h1, h2, alignedWords_nil]

theorem alignedWords_chunk (k p : Nat) (l : List Nat) (hp : 1 ≤ p) (hl : p ≤ l.length) :
    alignedWords k p l = packLE k (l.take p) :: alignedWords k p (l.drop p) := by
  match l, hp, hl with
  | [], hp, hl => exact absurd hl (by simp; omega)
  | t :: ts, hp, hl =>
    rw [alignedWords]
    congr 1
    have hdp : (t :: ts).drop p = ts.drop (p - 1) := by
      cases p with
      | zero => omega
      | succ q => simp [List.drop_succ_cons]
    rw [hdp]

/-- The `PackedAligned.compress` loop (with its final flush) in closed form:
starting from a partial chunk `c`, it appends the aligned body of
`c ++ tokens`. -/
theorem alignedCompressLoop_flush (k p : Nat) (zz : Bool) (hp : 1 ≤ p)
    (hkp : k * p ≤ 32) (arr : List Int) :
    ∀ (c : List Nat) out, c.length < p → (∀ t ∈ c, t < 2 ^ k) →
      (let s := PackedAligned.compressLoop k p zz arr (packLE k c) c.length out
       if s.2.1 ≠ 0 then s.2.2 ++ [s.1 &&& WORD_MASK] else s.2.2) =
      out ++ alignedWords k p (c ++ arr.map (maskVal k zz)) := by
  induction arr with
  | nil =>
    intro c out hcp hc
    simp only [PackedAligned.compressLoop, List.map_nil, List.append_nil]
    cases c with
    | nil => simp [alignedWords_nil, packLE]
    | cons t ts =>
      have hne : (t :: ts).length ≠ 0 := by simp
      rw [if_pos hne, alignedWords_short k p _ (by simp) (le_of_lt hcp)]
      have hlt : packLE k (t :: ts) < 2 ^ 32 := by
        calc packLE k (t :: ts) < 2 ^ (k * (t :: ts).length) := packLE_lt k _ hc
          _ ≤ 2 ^ 32 := Nat.pow_le_pow_right (by norm_num)
            (le_trans (Nat.mul_le_mul_left k (le_of_lt hcp)) hkp)
      have hmask : packLE k (t :: ts) &&& WORD_MASK = packLE k (t :: ts) :=
        (and_mask_eq_mod _ 32).trans (Nat.mod_eq_of_lt hlt)
      rw [hmask]
  | cons v rest ih =>
    intro c out hcp hc
    have hval : maskVal k zz v < 2 ^ k := maskVal_lt k zz v
    have hclt : packLE k c < 2 ^ (c.length * k) := by
      rw [Nat.mul_comm]
      exact packLE_lt k c hc
    have hcur1 : packLE k c ||| (maskVal k zz v <<< (c.length * k)) =
        packLE k (c ++ [maskVal k zz v]) := by
      rw [lor_shiftLeft_eq_add _ _ hclt, packLE_append]
      simp [packLE, Nat.mul_comm]
    have hcbound : ∀ t ∈ c ++ [maskVal k zz v], t < 2 ^ k := by
      intro t ht
      rcases List.mem_append.mp ht with h | h
      · exact hc t h
      · simp at h; subst h; exact hval
    by_cases hfull : c.length + 1 = p
    · simp only [PackedAligned.compressLoop, hcur1, if_pos hfull]
      have hlt : packLE k (c ++ [maskVal k zz v]) < 2 ^ 32 := by
        calc packLE k (c ++ [maskVal k zz v]) < 2 ^ (k * (c ++ [maskVal k zz v]).length) :=
            packLE_lt k _ hcbound
          _ ≤ 2 ^ 32 := by
            apply Nat.pow_le_pow_right (by norm_num)
            simp only [List.length_append, List.length_cons, List.length_nil]
            calc k * (c.length + 1) = k * p := by rw [hfull]
              _ ≤ 32 := hkp
      have hmask : packLE k (c ++ [maskVal k zz v]) &&& WORD_MASK =
          packLE k (c ++ [maskVal k zz v]) :=
        (and_mask_eq_mod _ 32).trans (Nat.mod_eq_of_lt hlt)
      rw [hmask]
      have hstart : (0 : Nat) = packLE k [] := rfl
      have hzero : (0 : Nat) = ([] : List Nat).length := rfl
      have := ih ([]) (out ++ [packLE k (c ++ [maskVal k zz v])]) (by omega) (by simp)
      simp only [packLE, List.nil_append, List.length_nil] at this
      rw [this, List.append_assoc]
      congr 1
      rw [List.map_cons, alignedWords_chunk k p
        (c ++ maskVal k zz v :: rest.map (maskVal k zz)) hp
        (by rw [List.length_append, List.length_cons, List.length_map]; omega)]
      have htake : (c ++ maskVal k zz v :: rest.map (maskVal k zz)).take p =
          c ++ [maskVal k zz v] := by
        rw [show c ++ maskVal k zz v :: rest.map (maskVal k zz) =
            (c ++ [maskVal k zz v]) ++ rest.map (maskVal k zz) from by simp,
          List.take_append_of_le_length (by simp; omega)]
        apply List.take_of_length_le
        simp
        omega
      have hdrop : (c ++ maskVal k zz v :: rest.map (maskVal k zz)).drop p =
          rest.map (maskVal k zz) := by
        rw [show c ++ maskVal k zz v :: rest.map (maskVal k zz) =
            (c ++ [maskVal k zz v]) ++ rest.map (maskVal k zz) from by simp,
          List.drop_append_of_le_length (by simp; omega)]
        have : (c ++ [maskVal k zz v]).length = p := by simp; omega
        rw [List.drop_eq_nil_of_le (by omega), List.nil_append]
      rw [htake, hdrop]
      rfl
    · simp only [PackedAligned.compressLoop, hcur1, if_neg hfull]
      have hlen : c.length + 1 = (c ++ [maskVal k zz v]).length := by simp
      rw [hlen]
      have := ih (c ++ [maskVal k zz v]) out (by simp; omega) hcbound
      rw [this]
      simp

/-- `PackedAligned.compress` in closed form. -/
theorem alignedCompress_eq (k : Nat) (zz : Bool) (arr : List Int)
    (hk1 : 1 ≤ k) (hk32 : k ≤ 32) :
    PackedAligned.compress k zz arr =
      ((k &&& 0xFFFF) ||| ((arr.length &&& 0xFFFF) <<< 16)) ::
        alignedWords k (32 / k) (arr.map (maskVal k zz)) := by
  have hp : 1 ≤ 32 / k := (Nat.one_le_div_iff (by omega)).mpr hk32
  have hkp : k * (32 / k) ≤ 32 := by
    rw [Nat.mul_comm]
    exact Nat.div_mul_le_self 32 k
  have hflush := alignedCompressLoop_flush k (32 / k) zz hp hkp arr []
    [(k &&& 0xFFFF) ||| ((arr.length &&& 0xFFFF) <<< 16)] (by simpa using hp) (by simp)
  simp only [packLE, List.length_nil, List.nil_append] at hflush
  unfold PackedAligned.compress
  rw [show WORD_BITS = 32 from rfl]
  exact hflush

/-! ### Aligned codec: decompress side -/

theorem extractToks_length (k : Nat) : ∀ r S, (extractToks k r S).length = r := by
  intro r
  induction r with
  | zero => intro S; rfl
  | succ r ih => intro S; simp [extractToks, ih]

theorem extractToks_take (k : Nat) :
    ∀ r n S, (extractToks k r S).take n = extractToks k (min n r) S := by
  intro r
  induction r with
  | zero => intro n S; simp [extractToks]
  | succ r ih =>
    intro n S
    cases n with
    | zero => simp [extractToks]
    | succ n =>
      simp only [extractToks, List.take_succ_cons, ih, Nat.succ_min_succ]

theorem alignedDecompressWord_eq (k : Nat) (zz : Bool) (length : Nat) (hk : k ≠ 0) :
    ∀ j cur out, PackedAligned.decompressWord k zz length j cur out =
      out ++ (extractToks k (min j (length - out.length)) cur).map (decOut zz) := by
  intro j
  induction j with
  | zero => intro cur out; simp [PackedAligned.decompressWord, extractToks]
  | succ j ih =>
    intro cur out
    by_cases hlen : length ≤ out.length
    · rw [PackedAligned.decompressWord, if_pos hlen]
      have h0 : length - out.length = 0 := by omega
      rw [h0]
      simp [extractToks]
    · rw [PackedAligned.decompressWord, if_neg hlen]
      simp only [if_pos hk, ih]
      have hlen1 : (out ++ [decOut zz (cur &&& (2 ^ k - 1))]).length = out.length + 1 := by
        simp
      rw [hlen1]
      have hmin : min (j + 1) (length - out.length) =
          min j (length - (out.length + 1)) + 1 := by omega
      rw [hmin]
      simp only [extractToks, and_mask_eq_mod, Nat.shiftRight_eq_div_pow, List.map_cons]
      simp

theorem alignedDecompressLoop_eq (k p : Nat) (zz : Bool) (length : Nat) (hk : k ≠ 0) :
    ∀ ws out, PackedAligned.decompressLoop k p zz length ws out =
      out ++ ((ws.flatMap (extractToks k p)).take (length - out.length)).map (decOut zz) := by
  intro ws
  induction ws with
  | nil => intro out; simp [PackedAligned.decompressLoop]
  | cons w ws ih =>
    intro out
    by_cases h : out.length < length
    · rw [PackedAligned.decompressLoop, if_pos h,
        alignedDecompressWord_eq k zz length hk p w out, ih]
      have hlen2 : (out ++ (extractToks k (min p (length - out.length)) w).map
          (decOut zz)).length = out.length + min p (length - out.length) := by
        simp [extractToks_length]
      rw [hlen2]
      have hrest : length - (out.length + min p (length - out.length)) =
          length - out.length - p := by
        rcases Nat.le_total p (length - out.length) with hmp | hmp
        · rw [min_eq_left hmp]; omega
        · rw [min_eq_right hmp]; omega
      rw [hrest, List.flatMap_cons, List.take_append_eq_append_take, extractToks_length,
        extractToks_take, Nat.min_comm (length - out.length) p, List.map_append,
        List.append_assoc]
    · rw [PackedAligned.decompressLoop, if_neg h]
      have h0 : length - out.length = 0 := by omega
      rw [h0]
      simp

/-- Extracting back the aligned body of a token list recovers the tokens. -/
theorem flat_extract_alignedWords (k p : Nat) (hp : 1 ≤ p) :
    ∀ n (toks : List Nat), toks.length ≤ n → (∀ t ∈ toks, t < 2 ^ k) →
      ((alignedWords k p toks).flatMap (extractToks k p)).take toks.length = toks := by
  intro n
  induction n with
  | zero =>
    intro toks hn _
    have : toks = [] := List.eq_nil_of_length_eq_zero (by omega)
    subst this
    simp [alignedWords_nil]
  | succ n ih =>
    intro toks hn htoks
    by_cases hnil : toks = []
    · subst hnil; simp [alignedWords_nil]
    by_cases hshort : toks.length ≤ p
    · rw [alignedWords_short k p toks hnil hshort]
      have hext : extractToks k p (packLE k toks) =
          toks ++ List.replicate (p - toks.length) 0 :=
        extractToks_packLE k toks htoks p hshort
      simp only [List.flatMap_cons, List.flatMap_nil, List.append_nil, hext]
      rw [List.take_append_eq_append_take, List.take_of_length_le (le_refl _),
        Nat.sub_self, List.take_zero, List.append_nil]
    · push_neg at hshort
      rw [alignedWords_chunk k p toks hp (le_of_lt hshort)]
      have htake_lt : ∀ t ∈ toks.take p, t < 2 ^ k := fun t ht =>
        htoks t (List.mem_of_mem_take ht)
      have hdrop_lt : ∀ t ∈ toks.drop p, t < 2 ^ k := fun t ht =>
        htoks t (List.mem_of_mem_drop ht)
      have hlen_take : (toks.take p).length = p := List.length_take_of_le (le_of_lt hshort)
      have hext : extractToks k p (packLE k (toks.take p)) = toks.take p := by
        have := extractToks_packLE k (toks.take p) htake_lt p (by omega)
        simpa [hlen_take] using this
      simp only [List.flatMap_cons, hext]
      rw [List.take_append_eq_append_take, hlen_take,
        List.take_of_length_le (by omega)]
      have hdroplen : (toks.drop p).length = toks.length - p := List.length_drop p toks
      have hih := ih (toks.drop p) (by omega) hdrop_lt
      rw [hdroplen] at hih
      rw [hih]
      exact List.take_append_drop p toks

/-- Round trip for the aligned codec (no admissibility assumption on the
values). -/
theorem alignedDecompress_compress (k : Nat) (zz : Bool) (arr : List Int)
    (hk1 : 1 ≤ k) (hk32 : k ≤ 32) (hlen : arr.length ≤ 65535) (out0 : List Int) :
    PackedAligned.decompress zz (PackedAligned.compress k zz arr) out0 =
      some (arr.map fun v => decOut zz (maskVal k zz v)) := by
  rw [alignedCompress_eq k zz arr hk1 hk32]
  have hk16 : k < 2 ^ 16 := by omega
  have hmod : arr.length % 2 ^ 16 = arr.length := Nat.mod_eq_of_lt (by omega)
  have hhdr : (k &&& 0xFFFF) ||| ((arr.length &&& 0xFFFF) <<< 16) =
      k + arr.length * 2 ^ 16 := by
    rw [crossHeader_eq k arr.length hk16, hmod]
  rw [hhdr]
  have hfk : (k + arr.length * 2 ^ 16) &&& 0xFFFF = k := field_low k arr.length 16 hk16
  have hfn : ((k + arr.length * 2 ^ 16) >>> 16) &&& 0xFFFF = arr.length := by
    rw [field_shift k arr.length 16 hk16,
      show (0xFFFF : Nat) = 2 ^ 16 - 1 from rfl, and_mask_eq_mod, hmod]
  simp only [PackedAligned.decompress, hfk, hfn, if_neg (by omega : ¬ k = 0)]
  rw [show WORD_BITS = 32 from rfl,
    alignedDecompressLoop_eq k (32 / k) zz arr.length (by omega)]
  have hp : 1 ≤ 32 / k := (Nat.one_le_div_iff (by omega)).mpr hk32
  have htoklt : ∀ t ∈ arr.map (maskVal k zz), t < 2 ^ k := by
    intro t ht
    rcases List.mem_map.mp ht with ⟨v, _, hv⟩
    exact hv ▸ maskVal_lt k zz v
  have hflat := flat_extract_alignedWords k (32 / k) hp (arr.map (maskVal k zz)).length
    (arr.map (maskVal k zz)) (le_refl _) htoklt
  simp only [List.length_map] at hflat
  simp only [List.length_nil, Nat.sub_zero, hflat, List.nil_append]
  rw [List.map_map]
  rfl

/-! ### Overflow codec: compress side -/

theorem ovTokens_nil (sk : Nat) (zz : Bool) : ovTokens sk zz [] = [] := rfl

theorem ovTokens_cons (sk : Nat) (zz : Bool) (v : Int) (rest : List Int) :
    ovTokens sk zz (v :: rest) =
      (if (if zz then zigzag_encode v else v) ≤ (2 ^ sk : Int) - 2 then
        (if zz then zigzag_encode v else v).toNat
      else 2 ^ sk - 1) :: ovTokens sk zz rest := rfl

theorem ovEscapes_nil (sk : Nat) (zz : Bool) : ovEscapes sk zz [] = [] := rfl

theorem ovEscapes_cons_inline (sk : Nat) (zz : Bool) (v : Int) (rest : List Int)
    (h : (if zz then zigzag_encode v else v) ≤ (2 ^ sk : Int) - 2) :
    ovEscapes sk zz (v :: rest) = ovEscapes sk zz rest := by
  unfold ovEscapes
  simp [List.filter_cons, not_lt.mpr h]

theorem ovEscapes_cons_escape (sk : Nat) (zz : Bool) (v : Int) (rest : List Int)
    (h : (2 ^ sk : Int) - 2 < (if zz then zigzag_encode v else v)) :
    ovEscapes sk zz (v :: rest) =
      (if zz then zigzag_encode v else v).toNat :: ovEscapes sk zz rest := by
  unfold ovEscapes
  simp [List.filter_cons, h]

theorem ovTokens_lt (sk : Nat) (zz : Bool) (arr : List Int) :
    ∀ t ∈ ovTokens sk zz arr, t < 2 ^ sk := by
  intro t ht
  unfold ovTokens at ht
  rcases List.mem_map.mp ht with ⟨v, _, hv⟩
  simp only at hv
  by_cases hesc : (if zz then zigzag_encode v else v) ≤ (2 ^ sk : Int) - 2
  · rw [if_pos hesc] at hv
    have hcast : ((2 ^ sk : Nat) : Int) = (2 ^ sk : Int) := by push_cast; ring
    have hpos : (0 : Nat) < 2 ^ sk := Nat.two_pow_pos sk
    omega
  · rw [if_neg hesc] at hv
    have hpos : (0 : Nat) < 2 ^ sk := Nat.two_pow_pos sk
    omega

/-- The `Nat`-bitstream restatement `ovPackLoop` of the overflow compress
loop in closed form: the token stream is packed exactly like the cross
body, and the escaped values accumulate in order.  (The source loop agrees
with `ovPackLoop` on nonnegative transformed values,
`overflowCompressLoop_natCast`.) -/
theorem overflowCompressLoop_eq (sk : Nat) (zz : Bool) (arr : List Int) :
    ∀ bs bl out_main overflow, bs < 2 ^ bl → bl < 32 →
      ovPackLoop sk zz arr bs bl out_main overflow =
        ((bs + 2 ^ bl * packLE sk (ovTokens sk zz arr)) /
            2 ^ (32 * ((bl + arr.length * sk) / 32)),
          (bl + arr.length * sk) % 32,
          out_main ++ wordsOf (bs + 2 ^ bl * packLE sk (ovTokens sk zz arr))
            ((bl + arr.length * sk) / 32),
          overflow ++ ovEscapes sk zz arr) := by
  induction arr with
  | nil =>
    intro bs bl out overflow hbs hbl
    simp only [ovPackLoop, ovTokens_nil, ovEscapes_nil, packLE,
      List.length_nil, List.append_nil]
    have h0 : (bl + 0 * sk) / 32 = 0 := by omega
    have h1 : (bl + 0 * sk) % 32 = bl := by omega
    rw [h0, h1]
    simp [wordsOf]
  | cons v rest ih =>
    intro bs bl out overflow hbs hbl
    have step : ∀ (tokv : Nat) (ov1 : List Nat), tokv < 2 ^ sk →
        ovTokens sk zz (v :: rest) = tokv :: ovTokens sk zz rest →
        overflow ++ ovEscapes sk zz (v :: rest) = ov1 ++ ovEscapes sk zz rest →
        (let s := emitWords ((bl + sk) / 32) (bs ||| (tokv <<< bl)) (bl + sk) out
         ovPackLoop sk zz rest s.1 s.2.1 s.2.2 ov1) =
        ((bs + 2 ^ bl * packLE sk (ovTokens sk zz (v :: rest))) /
            2 ^ (32 * ((bl + (v :: rest).length * sk) / 32)),
          (bl + (v :: rest).length * sk) % 32,
          out ++ wordsOf (bs + 2 ^ bl * packLE sk (ovTokens sk zz (v :: rest)))
            ((bl + (v :: rest).length * sk) / 32),
          overflow ++ ovEscapes sk zz (v :: rest)) := by
      intro tokv ov1 hval htok hov
      have hbs1 : bs ||| (tokv <<< bl) = bs + tokv * 2 ^ bl :=
        lor_shiftLeft_eq_add _ _ hbs
      simp only [hbs1, emitWords_eq]
      have hmod32 : bl + sk - 32 * ((bl + sk) / 32) = (bl + sk) % 32 := by omega
      rw [hmod32]
      have hB : bs + tokv * 2 ^ bl < 2 ^ (bl + sk) := by
        calc bs + tokv * 2 ^ bl < 2 ^ bl + tokv * 2 ^ bl := by omega
          _ = (tokv + 1) * 2 ^ bl := by ring
          _ ≤ 2 ^ sk * 2 ^ bl := Nat.mul_le_mul_right _ (by omega)
          _ = 2 ^ (bl + sk) := by rw [← pow_add]; congr 1; ring
      have hsum : (bl + sk) % 32 + 32 * ((bl + sk) / 32) = bl + sk := by omega
      have hbs2 : (bs + tokv * 2 ^ bl) / 2 ^ (32 * ((bl + sk) / 32)) <
          2 ^ ((bl + sk) % 32) := by
        rw [Nat.div_lt_iff_lt_mul (Nat.two_pow_pos _), ← pow_add, hsum]
        exact hB
      have hbl2 : (bl + sk) % 32 < 32 := Nat.mod_lt _ (by norm_num)
      rw [ih _ _ _ _ hbs2 hbl2]
      have hTsplit : bs + 2 ^ bl * packLE sk (ovTokens sk zz (v :: rest)) =
          bs + tokv * 2 ^ bl +
            2 ^ (32 * ((bl + sk) / 32)) *
              (2 ^ ((bl + sk) % 32) * packLE sk (ovTokens sk zz rest)) := by
        rw [htok]
        show bs + 2 ^ bl * (tokv + 2 ^ sk * packLE sk (ovTokens sk zz rest)) = _
        rw [← mul_assoc, ← pow_add,
          show 32 * ((bl + sk) / 32) + (bl + sk) % 32 = bl + sk from by omega, pow_add]
        ring
      have hRk : (rest.length + 1) * sk = rest.length * sk + sk := by ring
      have hc1 : (bs + 2 ^ bl * packLE sk (ovTokens sk zz (v :: rest))) /
          2 ^ (32 * ((bl + sk) / 32)) =
          (bs + tokv * 2 ^ bl) / 2 ^ (32 * ((bl + sk) / 32)) +
            2 ^ ((bl + sk) % 32) * packLE sk (ovTokens sk zz rest) := by
        rw [hTsplit, Nat.add_mul_div_left _ _ (Nat.two_pow_pos _)]
      have hqsum : 32 * ((bl + sk) / 32) +
          32 * (((bl + sk) % 32 + rest.length * sk) / 32) =
          32 * ((bl + (v :: rest).length * sk) / 32) := by
        simp only [List.length_cons, hRk]
        omega
      have hc2 : ((bl + sk) % 32 + rest.length * sk) % 32 =
          (bl + (v :: rest).length * sk) % 32 := by
        simp only [List.length_cons, hRk]
        omega
      have hfirst : ((bs + tokv * 2 ^ bl) / 2 ^ (32 * ((bl + sk) / 32)) +
            2 ^ ((bl + sk) % 32) * packLE sk (ovTokens sk zz rest)) /
            2 ^ (32 * (((bl + sk) % 32 + rest.length * sk) / 32)) =
          (bs + 2 ^ bl * packLE sk (ovTokens sk zz (v :: rest))) /
            2 ^ (32 * ((bl + (v :: rest).length * sk) / 32)) := by
        rw [← hc1, Nat.div_div_eq_div_mul, ← pow_add, hqsum]
      have hmodB : (bs + 2 ^ bl * packLE sk (ovTokens sk zz (v :: rest))) %
          2 ^ (32 * ((bl + sk) / 32)) =
          (bs + tokv * 2 ^ bl) % 2 ^ (32 * ((bl + sk) / 32)) := by
        rw [hTsplit, Nat.add_mul_mod_self_left]
      have hwords : (out ++ wordsOf (bs + tokv * 2 ^ bl) ((bl + sk) / 32)) ++
          wordsOf ((bs + tokv * 2 ^ bl) / 2 ^ (32 * ((bl + sk) / 32)) +
            2 ^ ((bl + sk) % 32) * packLE sk (ovTokens sk zz rest))
            (((bl + sk) % 32 + rest.length * sk) / 32) =
          out ++ wordsOf (bs + 2 ^ bl * packLE sk (ovTokens sk zz (v :: rest)))
            ((bl + (v :: rest).length * sk) / 32) := by
        rw [List.append_assoc]
        congr 1
        have hq : (bl + (v :: rest).length * sk) / 32 =
            (bl + sk) / 32 + ((bl + sk) % 32 + rest.length * sk) / 32 := by
          simp only [List.length_cons, hRk]
          omega
        rw [hq, wordsOf_append]
        congr 1
        · exact wordsOf_congr_mod _ _ _ (by rw [hmodB])
        · rw [hc1]
      rw [Prod.mk.injEq, Prod.mk.injEq, Prod.mk.injEq]
      exact ⟨hfirst, hc2, hwords, hov.symm⟩
    by_cases hesc : (if zz then zigzag_encode v else v) ≤ (2 ^ sk : Int) - 2
    · have h1 := step ((if zz then zigzag_encode v else v).toNat) overflow
        (by
          have hcast : ((2 ^ sk : Nat) : Int) = (2 ^ sk : Int) := by push_cast; ring
          have hpos : (0 : Nat) < 2 ^ sk := Nat.two_pow_pos sk
          omega)
        (by rw [ovTokens_cons, if_pos hesc])
        (by rw [ovEscapes_cons_inline sk zz v rest hesc])
      simp only [ovPackLoop, if_pos hesc] at h1 ⊢
      exact h1
    · have h1 := step (2 ^ sk - 1) (overflow ++ [(if zz then zigzag_encode v else v).toNat])
        (by have hpos : (0 : Nat) < 2 ^ sk := Nat.two_pow_pos sk; omega)
        (by rw [ovTokens_cons, if_neg hesc])
        (by rw [ovEscapes_cons_escape sk zz v rest (not_le.mp hesc), List.append_assoc]; rfl)
      simp only [ovPackLoop, if_neg hesc] at h1 ⊢
      exact h1

/-- Casts commute with the flush loop: on a nonnegative bitstream the
`Int` flush loop is the `Nat` one. -/
theorem emitWordsI_natCast (f : Nat) : ∀ (N : Nat) (bl : Nat) (out : List Nat),
    emitWordsI f (N : Int) bl out =
      (((emitWords f N bl out).1 : Int), (emitWords f N bl out).2.1,
        (emitWords f N bl out).2.2) := by
  induction f with
  | zero => intro N bl out; rfl
  | succ f ih =>
    intro N bl out
    have hshr : (N : Int) >>> (32 : Nat) = ((N >>> 32 : Nat) : Int) := rfl
    have hland : Int.land (N : Int) (WORD_MASK : Int) = ((N &&& WORD_MASK : Nat) : Int) :=
      rfl
    have htn : (((N &&& WORD_MASK : Nat) : Int)).toNat = N &&& WORD_MASK :=
      Int.toNat_natCast _
    simp only [emitWordsI, emitWords, hshr, hland, htn, ih]

/-- On inputs whose (optionally ZigZag-transformed) values are all
nonnegative, the source compress loop never goes negative: it is the cast
of the `Nat`-bitstream restatement `ovPackLoop`. -/
theorem overflowCompressLoop_natCast (sk : Nat) (zz : Bool) :
    ∀ (arr : List Int) (bs : Nat) (bl : Nat) (om ov : List Nat),
      (∀ v ∈ arr, 0 ≤ (if zz then zigzag_encode v else v)) →
      OverflowPacking.compressLoop sk zz arr (bs : Int) bl om ov =
        (((ovPackLoop sk zz arr bs bl om ov).1 : Int),
          (ovPackLoop sk zz arr bs bl om ov).2.1,
          (ovPackLoop sk zz arr bs bl om ov).2.2.1,
          (ovPackLoop sk zz arr bs bl om ov).2.2.2) := by
  intro arr
  induction arr with
  | nil => intro bs bl om ov hnn; rfl
  | cons v rest ih =>
    intro bs bl om ov hnn
    have hv0 : 0 ≤ (if zz then zigzag_encode v else v) :=
      hnn v (List.mem_cons_self v rest)
    have hih := ih
    simp only [OverflowPacking.compressLoop, ovPackLoop]
    have htokc : ∀ tokN : Nat,
        Int.lor (bs : Int) (((tokN : Nat) : Int) <<< ((bl : Nat) : Int)) =
          ((bs ||| (tokN <<< bl) : Nat) : Int) := by
      intro tokN
      rw [Int.shiftLeft_coe_nat]
      rfl
    by_cases hesc : (if zz then zigzag_encode v else v) ≤ (2 ^ sk : Int) - 2
    · rw [if_pos hesc, if_pos hesc, if_pos hesc]
      have hval : (if zz then zigzag_encode v else v) =
          (((if zz then zigzag_encode v else v).toNat : Nat) : Int) :=
        (Int.toNat_of_nonneg hv0).symm
      rw [hval, htokc, emitWordsI_natCast]
      exact ih _ _ _ _ fun x hx => hnn x (List.mem_cons_of_mem v hx)
    · rw [if_neg hesc, if_neg hesc, if_neg hesc]
      have hval : (2 ^ sk : Int) - 1 = (((2 ^ sk - 1 : Nat) : Nat) : Int) := by
        have h := Nat.two_pow_pos sk
        have hcast : ((2 ^ sk : Nat) : Int) = (2 ^ sk : Int) := by push_cast; ring
        omega
      rw [hval, htokc, emitWordsI_natCast]
      exact ih _ _ _ _ fun x hx => hnn x (List.mem_cons_of_mem v hx)

theorem overflowHeader_eq (sk n oc : Nat) (hsk : sk < 2 ^ 8) :
    (sk &&& 0xFF) ||| ((n &&& 0xFFFF) <<< 8) ||| ((oc &&& 0xFF) <<< 24) =
      sk + n % 2 ^ 16 * 2 ^ 8 + oc % 2 ^ 8 * 2 ^ 24 := by
  have h1 : sk &&& 0xFF = sk := by
    rw [show (0xFF : Nat) = 2 ^ 8 - 1 from rfl, and_mask_eq_mod, Nat.mod_eq_of_lt hsk]
  have h2 : n &&& 0xFFFF = n % 2 ^ 16 := by
    rw [show (0xFFFF : Nat) = 2 ^ 16 - 1 from rfl, and_mask_eq_mod]
  have h3 : oc &&& 0xFF = oc % 2 ^ 8 := by
    rw [show (0xFF : Nat) = 2 ^ 8 - 1 from rfl, and_mask_eq_mod]
  have hn16 : n % 2 ^ 16 < 2 ^ 16 := Nat.mod_lt _ (by norm_num)
  have hlt24 : sk + n % 2 ^ 16 * 2 ^ 8 < 2 ^ 24 := by omega
  rw [h1, h2, h3, lor_shiftLeft_eq_add (n % 2 ^ 16) 8 hsk,
    lor_shiftLeft_eq_add (oc % 2 ^ 8) 24 hlt24]

theorem ovField_sk (sk n oc : Nat) (hsk : sk < 2 ^ 8) :
    (sk + n % 2 ^ 16 * 2 ^ 8 + oc % 2 ^ 8 * 2 ^ 24) &&& 0xFF = sk := by
  rw [show sk + n % 2 ^ 16 * 2 ^ 8 + oc % 2 ^ 8 * 2 ^ 24 =
      sk + (n % 2 ^ 16 + oc % 2 ^ 8 * 2 ^ 16) * 2 ^ 8 from by ring,
    show (0xFF : Nat) = 2 ^ 8 - 1 from rfl, field_low _ _ 8 hsk]

theorem ovField_n (sk n oc : Nat) (hsk : sk < 2 ^ 8) :
    ((sk + n % 2 ^ 16 * 2 ^ 8 + oc % 2 ^ 8 * 2 ^ 24) >>> 8) &&& 0xFFFF = n % 2 ^ 16 := by
  rw [show sk + n % 2 ^ 16 * 2 ^ 8 + oc % 2 ^ 8 * 2 ^ 24 =
      sk + (n % 2 ^ 16 + oc % 2 ^ 8 * 2 ^ 16) * 2 ^ 8 from by ring,
    field_shift _ _ 8 hsk, show (0xFFFF : Nat) = 2 ^ 16 - 1 from rfl,
    field_low _ _ 16 (Nat.mod_lt _ (by norm_num))]

theorem ovHeader_lt (sk n oc : Nat) (hsk : sk < 2 ^ 8) :
    sk + n % 2 ^ 16 * 2 ^ 8 + oc % 2 ^ 8 * 2 ^ 24 < 2 ^ 32 := by
  have hn16 : n % 2 ^ 16 < 2 ^ 16 := Nat.mod_lt _ (by norm_num)
  have hoc : oc % 2 ^ 8 < 2 ^ 8 := Nat.mod_lt _ (by norm_num)
  omega

/-- `OverflowPacking.compress` in closed form — header word, packed token
body, then the overflow tail — on inputs whose (transformed) values are
nonnegative, where the source's `Int` bitstream stays nonnegative. -/
theorem overflowCompress_eq (sk : Nat) (zz : Bool) (arr : List Int)
    (hnn : ∀ v ∈ arr, 0 ≤ (if zz then zigzag_encode v else v)) :
    OverflowPacking.compress sk zz arr =
      ((sk &&& 0xFF) ||| ((arr.length &&& 0xFFFF) <<< 8) |||
          (((ovEscapes sk zz arr).length &&& 0xFF) <<< 24)) ::
        (wordsOf (packLE sk (ovTokens sk zz arr)) ((arr.length * sk + 31) / 32) ++
          ovEscapes sk zz arr) := by
  unfold OverflowPacking.compress
  have hbr : OverflowPacking.compressLoop sk zz arr 0 0 [] [] =
      (((ovPackLoop sk zz arr 0 0 [] []).1 : Int),
        (ovPackLoop sk zz arr 0 0 [] []).2.1,
        (ovPackLoop sk zz arr 0 0 [] []).2.2.1,
        (ovPackLoop sk zz arr 0 0 [] []).2.2.2) :=
    overflowCompressLoop_natCast sk zz arr 0 0 [] [] hnn
  rw [hbr, overflowCompressLoop_eq sk zz arr 0 0 [] [] (by norm_num) (by norm_num)]
  simp only [Nat.zero_add, zero_add, pow_zero, one_mul, List.nil_append]
  have hmaskI : ∀ a : Nat, (Int.land (a : Int) (WORD_MASK : Int)).toNat = a % 2 ^ 32 := by
    intro a
    have h : Int.land (a : Int) (WORD_MASK : Int) = ((a &&& WORD_MASK : Nat) : Int) := rfl
    rw [h, Int.toNat_natCast]
    exact and_mask_eq_mod a 32
  by_cases h : arr.length * sk % 32 = 0
  · rw [if_neg (by simp [h])]
    have hq : (arr.length * sk + 31) / 32 = arr.length * sk / 32 := by omega
    rw [hq]
  · rw [if_pos (by simpa using h)]
    have hq : (arr.length * sk + 31) / 32 = arr.length * sk / 32 + 1 := by omega
    rw [hq, wordsOf_append (arr.length * sk / 32) 1]
    have hone : ∀ X : Nat, wordsOf X 1 = [X % 2 ^ 32] := fun X => rfl
    rw [hone, hmaskI]

/-! ### Overflow codec: decompress side -/

/-- On a well-formed stream (`ostart` marks the end of the token body) the
overflow decompression loop agrees with token extraction followed by
`unescape` against the remaining tail. -/
theorem overflowDecompressLoop_eq (l : List Nat) (sk : Nat) (zz : Bool)
    (hsk1 : 1 ≤ sk) (hsk32 : sk ≤ 32) (ostart : Nat) (hos : ostart ≤ l.length)
    (hw : ∀ w ∈ l, w < 2 ^ 32) :
    ∀ rem bs bl iw oidx res, bs < 2 ^ bl → iw ≤ ostart → ostart ≤ oidx →
      (rem + 1) * sk ≤ bl + sk + 32 * (ostart - iw) →
      unescape zz sk (extractToks sk rem (bs + 2 ^ bl * packLE 32 ((l.take ostart).drop iw)))
        (l.drop oidx) = some res →
      OverflowPacking.decompressLoop l sk zz rem bs (bl : Int) iw oidx = some res := by
  intro rem
  induction rem with
  | zero =>
    intro bs bl iw oidx res _ _ _ _ hun
    simp only [extractToks, unescape, Option.some.injEq] at hun
    simp [OverflowPacking.decompressLoop, hun]
  | succ rem ih =>
    intro bs bl iw oidx res hbs hiw hoidx henough hun
    have step : ∀ bs1 bl1 iw1, bs1 < 2 ^ bl1 → sk ≤ bl1 → iw1 ≤ ostart →
        (rem + 1) * sk ≤ bl1 + 32 * (ostart - iw1) →
        bs1 + 2 ^ bl1 * packLE 32 ((l.take ostart).drop iw1) =
          bs + 2 ^ bl * packLE 32 ((l.take ostart).drop iw) →
        (if bs1 &&& (2 ^ sk - 1) = 2 ^ sk - 1 then
          if oidx < l.length then
            (OverflowPacking.decompressLoop l sk zz rem (bs1 >>> sk)
              ((bl1 - sk : Nat) : Int) iw1 (oidx + 1)).map
              (decOut zz (l.getD oidx 0) :: ·)
          else none
        else
          (OverflowPacking.decompressLoop l sk zz rem (bs1 >>> sk)
            ((bl1 - sk : Nat) : Int) iw1 oidx).map
            (decOut zz (bs1 &&& (2 ^ sk - 1)) :: ·)) = some res := by
      intro bs1 bl1 iw1 hbs1 hskbl1 hiw1 hen1 hsupply
      have hSmod : (bs + 2 ^ bl * packLE 32 ((l.take ostart).drop iw)) % 2 ^ sk =
          bs1 % 2 ^ sk := by
        rw [← hsupply,
          show bs1 + 2 ^ bl1 * packLE 32 ((l.take ostart).drop iw1) =
            bs1 + 2 ^ sk * (2 ^ (bl1 - sk) * packLE 32 ((l.take ostart).drop iw1)) from by
              rw [← mul_assoc, ← pow_add, show sk + (bl1 - sk) = bl1 from by omega],
          Nat.mul_comm (2 ^ sk), Nat.add_mul_mod_self_right]
      have hSdiv : (bs + 2 ^ bl * packLE 32 ((l.take ostart).drop iw)) / 2 ^ sk =
          bs1 / 2 ^ sk + 2 ^ (bl1 - sk) * packLE 32 ((l.take ostart).drop iw1) := by
        rw [← hsupply,
          show bs1 + 2 ^ bl1 * packLE 32 ((l.take ostart).drop iw1) =
            bs1 + 2 ^ sk * (2 ^ (bl1 - sk) * packLE 32 ((l.take ostart).drop iw1)) from by
              rw [← mul_assoc, ← pow_add, show sk + (bl1 - sk) = bl1 from by omega],
          Nat.add_mul_div_left _ _ (Nat.two_pow_pos sk)]
      rw [extractToks] at hun
      have hdivlt : bs1 / 2 ^ sk < 2 ^ (bl1 - sk) := by
        rw [Nat.div_lt_iff_lt_mul (Nat.two_pow_pos _), ← pow_add,
          show bl1 - sk + sk = bl1 from by omega]
        exact hbs1
      rw [and_mask_eq_mod, Nat.shiftRight_eq_div_pow]
      by_cases htok : bs1 % 2 ^ sk = 2 ^ sk - 1
      · rw [if_pos htok]
        rw [hSmod, htok] at hun
        simp only [unescape, if_pos] at hun
        cases hdb : l.drop oidx with
        | nil => rw [hdb] at hun; exact absurd hun (by simp)
        | cons r ov1 =>
          have hoidxlt : oidx < l.length := by
            by_contra hc
            rw [List.drop_eq_nil_of_le (by omega)] at hdb
            exact List.noConfusion hdb
          rw [hdb] at hun
          rcases Option.map_eq_some'.mp hun with ⟨res1, hres1, hcons⟩
          rw [if_pos hoidxlt]
          have hr : l.getD oidx 0 = r := by
            have := List.drop_eq_getElem_cons hoidxlt
            rw [hdb] at this
            have hrr : l[oidx] = r := (List.cons.injEq _ _ _ _).mp this.symm |>.1
            simp [List.getD_eq_getElem?_getD, List.getElem?_eq_getElem hoidxlt, hrr]
          have hov1 : l.drop (oidx + 1) = ov1 := by
            have := List.drop_eq_getElem_cons hoidxlt
            rw [hdb] at this
            exact ((List.cons.injEq _ _ _ _).mp this.symm).2.symm ▸ rfl
          have hrec := ih (bs1 / 2 ^ sk) (bl1 - sk) iw1 (oidx + 1) res1 hdivlt hiw1
            (by omega)
            (by
              have h1 : (rem + 1) * sk = rem * sk + sk := by ring
              omega)
            (by rw [hov1, ← hSdiv]; exact hres1)
          rw [hrec, hr]
          show some (decOut zz r :: res1) = some res
          rw [hcons]
      · rw [if_neg htok]
        rw [hSmod] at hun
        simp only [unescape] at hun
        rw [if_neg htok] at hun
        rcases Option.map_eq_some'.mp hun with ⟨res1, hres1, hcons⟩
        have hrec := ih (bs1 / 2 ^ sk) (bl1 - sk) iw1 oidx res1 hdivlt hiw1
          (by omega)
          (by
            have h1 : (rem + 1) * sk = rem * sk + sk := by ring
            omega)
          (by rw [← hSdiv]; exact hres1)
        rw [hrec]
        show some (decOut zz (bs1 % 2 ^ sk) :: res1) = some res
        rw [hcons]
    by_cases hblk : bl < sk
    · have hiwlt : iw < ostart := by
        rcases Nat.lt_or_ge iw ostart with h | h
        · exact h
        · exfalso
          have hz : ostart - iw = 0 := by omega
          rw [hz] at henough
          have : (rem + 1 + 1) * sk = rem * sk + sk + sk := by ring
          omega
      have hiwl : iw < l.length := by omega
      have hcast : ((bl : Int) < (sk : Int)) := by exact_mod_cast hblk
      have hgetD : l.getD iw 0 = l[iw] := by
        simp [List.getD_eq_getElem?_getD, List.getElem?_eq_getElem hiwl]
      have hwlt : l[iw] < 2 ^ 32 := hw _ (List.getElem_mem hiwl)
      have htoNat : (bl : Int).toNat = bl := Int.toNat_ofNat bl
      have hdrop : (l.take ostart).drop iw = l[iw] :: (l.take ostart).drop (iw + 1) := by
        have hlt : iw < (l.take ostart).length := by
          rw [List.length_take]
          omega
        rw [List.drop_eq_getElem_cons hlt]
        congr 1
        exact List.getElem_take l
      have hbs1lt : bs + l[iw] * 2 ^ bl < 2 ^ (bl + 32) := by
        calc bs + l[iw] * 2 ^ bl < 2 ^ bl + l[iw] * 2 ^ bl := by omega
          _ = (l[iw] + 1) * 2 ^ bl := by ring
          _ ≤ 2 ^ 32 * 2 ^ bl := Nat.mul_le_mul_right _ (by omega)
          _ = 2 ^ (bl + 32) := by rw [← pow_add]; congr 1; ring
      have hsupply : (bs + l[iw] * 2 ^ bl) + 2 ^ (bl + 32) *
          packLE 32 ((l.take ostart).drop (iw + 1)) =
          bs + 2 ^ bl * packLE 32 ((l.take ostart).drop iw) := by
        rw [hdrop]
        show _ = bs + 2 ^ bl * (l[iw] + 2 ^ 32 * packLE 32 ((l.take ostart).drop (iw + 1)))
        rw [pow_add]
        ring
      have hstep := step (bs + l[iw] * 2 ^ bl) (bl + 32) (iw + 1) hbs1lt (by omega)
        (by omega)
        (by
          have h1 : (rem + 1 + 1) * sk = (rem + 1) * sk + sk := by ring
          omega)
        hsupply
      have hcastbl : (bl : Int) + 32 - (sk : Int) = ((bl + 32 - sk : Nat) : Int) := by
        omega
      rw [OverflowPacking.decompressLoop]
      rw [if_pos hcast, if_pos (by omega : iw < oidx),
        if_neg (by omega : ¬ l.length ≤ iw),
        if_neg (not_lt.mpr (Int.natCast_nonneg bl))]
      simp only [htoNat, hgetD, lor_shiftLeft_eq_add _ _ hbs, hcastbl]
      exact hstep
    · have hcast : ¬ ((bl : Int) < (sk : Int)) := by exact_mod_cast hblk
      have hcastbl : (bl : Int) - (sk : Int) = ((bl - sk : Nat) : Int) := by
        omega
      have hstep := step bs bl iw hbs (by omega) hiw
        (by
          have h1 : (rem + 1 + 1) * sk = (rem + 1) * sk + sk := by ring
          omega)
        rfl
      rw [OverflowPacking.decompressLoop]
      rw [if_neg hcast]
      simp only [hcastbl]
      exact hstep

theorem zigzag_encode_lt (x : Int) (h1 : -(2 ^ 31) ≤ x) (h2 : x < 2 ^ 31) :
    zigzag_encode x < (2 ^ 32 : Int) := by
  cases x with
  | ofNat m =>
    have hm : m < 2 ^ 31 := by
      rw [Int.ofNat_eq_natCast] at h2; exact_mod_cast h2
    rw [Int.ofNat_eq_natCast, zigzag_encode_natCast m hm]
    have : (2 * m : Nat) < 2 ^ 32 := by omega
    exact_mod_cast this
  | negSucc m =>
    have hm : m < 2 ^ 31 := by
      have : (Int.negSucc m) = -((m : Int) + 1) := rfl
      omega
    rw [zigzag_encode_negSucc m hm]
    have : (2 * m + 1 : Nat) < 2 ^ 32 := by omega
    exact_mod_cast this

/-- On overflow-admissible values, the pre-transform is nonnegative and the
decompression-side transform undoes it. -/
theorem decOut_encVal (zz : Bool) (v : Int) (h : fitsOv zz v) :
    0 ≤ (if zz then zigzag_encode v else v) ∧
      decOut zz (if zz then zigzag_encode v else v).toNat = v := by
  unfold fitsOv at h
  cases zz with
  | false =>
    simp only [if_false, Bool.false_eq_true] at h ⊢
    obtain ⟨h0, _⟩ := h
    exact ⟨h0, by simp [decOut, Int.toNat_of_nonneg h0]⟩
  | true =>
    simp only [if_true] at h ⊢
    obtain ⟨h0, h1⟩ := h
    have he : 0 ≤ zigzag_encode v := zigzag_encode_nonneg v h0 h1
    refine ⟨he, ?_⟩
    simp only [decOut, if_true]
    rw [Int.toNat_of_nonneg he]
    exact zigzag_decode_encode v h0 h1

theorem ovEscapes_lt (sk : Nat) (zz : Bool) (arr : List Int)
    (hfits : ∀ v ∈ arr, fitsOv zz v) :
    ∀ w ∈ ovEscapes sk zz arr, w < 2 ^ 32 := by
  intro w hwmem
  unfold ovEscapes at hwmem
  rcases List.mem_map.mp hwmem with ⟨val, hvalmem, hval⟩
  rcases List.mem_filter.mp hvalmem with ⟨hvmem, _⟩
  rcases List.mem_map.mp hvmem with ⟨v, hv, hvv⟩
  have hf := hfits v hv
  unfold fitsOv at hf
  subst hval
  subst hvv
  cases zz with
  | false =>
    simp only [if_false, Bool.false_eq_true] at hf ⊢
    have hcast : ((2 ^ 32 : Nat) : Int) = (2 ^ 32 : Int) := by norm_cast
    omega
  | true =>
    simp only [if_true] at hf ⊢
    obtain ⟨h0, h1⟩ := hf
    have := zigzag_encode_lt v h0 h1
    have hcast : ((2 ^ 32 : Nat) : Int) = (2 ^ 32 : Int) := by norm_cast
    omega

/-- `unescape` undoes the token/tail split on admissible values. -/
theorem unescape_ovTokens (sk : Nat) (zz : Bool) (hsk1 : 1 ≤ sk) (arr : List Int)
    (hfits : ∀ v ∈ arr, fitsOv zz v) :
    unescape zz sk (ovTokens sk zz arr) (ovEscapes sk zz arr) = some arr := by
  induction arr with
  | nil => simp [ovTokens_nil, ovEscapes_nil, unescape]
  | cons v rest ih =>
    have hfv := hfits v (List.mem_cons_self v rest)
    have hdec := decOut_encVal zz v hfv
    have hih := ih fun x hx => hfits x (List.mem_cons_of_mem v hx)
    have hcast : ((2 ^ sk : Nat) : Int) = (2 ^ sk : Int) := by push_cast; ring
    have hsk2 : (2 : Nat) ≤ 2 ^ sk := by
      calc (2 : Nat) = 2 ^ 1 := rfl
        _ ≤ 2 ^ sk := Nat.pow_le_pow_right (by norm_num) hsk1
    by_cases hesc : (if zz then zigzag_encode v else v) ≤ (2 ^ sk : Int) - 2
    · rw [ovTokens_cons, if_pos hesc, ovEscapes_cons_inline sk zz v rest hesc]
      have hne : (if zz then zigzag_encode v else v).toNat ≠ 2 ^ sk - 1 := by
        have := hdec.1
        omega
      simp only [unescape, if_neg hne, hih, hdec.2]
      rfl
    · rw [ovTokens_cons, if_neg hesc, ovEscapes_cons_escape sk zz v rest (not_le.mp hesc)]
      simp only [unescape, if_pos rfl, hih, hdec.2]
      rfl

/-- Round trip for the overflow codec on admissible inputs. -/
theorem overflowDecompress_compress (sk : Nat) (zz : Bool) (arr : List Int)
    (hsk1 : 1 ≤ sk) (hsk32 : sk < 32) (hlen : arr.length ≤ 65535)
    (hoc : (ovEscapes sk zz arr).length ≤ 255)
    (hfits : ∀ v ∈ arr, fitsOv zz v) (out0 : List Int) :
    OverflowPacking.decompress zz (OverflowPacking.compress sk zz arr) out0 = some arr := by
  have hnn : ∀ v ∈ arr, 0 ≤ (if zz then zigzag_encode v else v) :=
    fun v hv => (decOut_encVal zz v (hfits v hv)).1
  rw [overflowCompress_eq sk zz arr hnn]
  have hsk8 : sk < 2 ^ 8 := by omega
  have hmodn : arr.length % 2 ^ 16 = arr.length := Nat.mod_eq_of_lt (by omega)
  have hmodoc : (ovEscapes sk zz arr).length % 2 ^ 8 =
      (ovEscapes sk zz arr).length := Nat.mod_eq_of_lt (by omega)
  have hhdr : (sk &&& 0xFF) ||| ((arr.length &&& 0xFFFF) <<< 8) |||
      (((ovEscapes sk zz arr).length &&& 0xFF) <<< 24) =
      sk + arr.length * 2 ^ 8 + (ovEscapes sk zz arr).length * 2 ^ 24 := by
    rw [overflowHeader_eq sk arr.length (ovEscapes sk zz arr).length hsk8, hmodn, hmodoc]
  rw [hhdr]
  have hfsk : (sk + arr.length * 2 ^ 8 + (ovEscapes sk zz arr).length * 2 ^ 24) &&&
      0xFF = sk := by
    have := ovField_sk sk arr.length (ovEscapes sk zz arr).length hsk8
    rw [hmodn, hmodoc] at this
    exact this
  have hfn : ((sk + arr.length * 2 ^ 8 + (ovEscapes sk zz arr).length * 2 ^ 24) >>> 8) &&&
      0xFFFF = arr.length := by
    have := ovField_n sk arr.length (ovEscapes sk zz arr).length hsk8
    rw [hmodn, hmodoc] at this
    exact this
  have hhdrlt : sk + arr.length * 2 ^ 8 + (ovEscapes sk zz arr).length * 2 ^ 24 <
      2 ^ 32 := by
    have := ovHeader_lt sk arr.length (ovEscapes sk zz arr).length hsk8
    rw [hmodn, hmodoc] at this
    exact this
  unfold OverflowPacking.decompress
  rw [if_neg (by simp)]
  simp only [List.getD_cons_zero, hfsk, hfn, show WORD_BITS = 32 from rfl, Nat.zero_max]
  have htoklt : ∀ t ∈ ovTokens sk zz arr, t < 2 ^ sk := ovTokens_lt sk zz arr
  have htoklen : (ovTokens sk zz arr).length = arr.length := by
    unfold ovTokens; simp
  have hW : (wordsOf (packLE sk (ovTokens sk zz arr)) ((arr.length * sk + 31) / 32)).length =
      (arr.length * sk + 31) / 32 := wordsOf_length _ _
  have hstream : ∀ w ∈ (sk + arr.length * 2 ^ 8 + (ovEscapes sk zz arr).length * 2 ^ 24) ::
      (wordsOf (packLE sk (ovTokens sk zz arr)) ((arr.length * sk + 31) / 32) ++
        ovEscapes sk zz arr), w < 2 ^ 32 := by
    intro w hwmem
    rcases List.mem_cons.mp hwmem with h | h
    · omega
    · rcases List.mem_append.mp h with h | h
      · exact wordsOf_mem_lt _ _ w h
      · exact ovEscapes_lt sk zz arr hfits w h
  have hzero : (0 : Int) = ((0 : Nat) : Int) := rfl
  rw [hzero]
  apply overflowDecompressLoop_eq _ sk zz hsk1 (by omega) (1 + (arr.length * sk + 31) / 32)
    (by simp [hW]; omega) hstream arr.length 0 0 1 _ arr (by norm_num) (by omega) (le_refl _)
    (by
      have hx : (arr.length + 1) * sk = arr.length * sk + sk := by ring
      omega)
  have htake : ((sk + arr.length * 2 ^ 8 + (ovEscapes sk zz arr).length * 2 ^ 24) ::
      (wordsOf (packLE sk (ovTokens sk zz arr)) ((arr.length * sk + 31) / 32) ++
        ovEscapes sk zz arr)).take (1 + (arr.length * sk + 31) / 32) =
      (sk + arr.length * 2 ^ 8 + (ovEscapes sk zz arr).length * 2 ^ 24) ::
        wordsOf (packLE sk (ovTokens sk zz arr)) ((arr.length * sk + 31) / 32) := by
    rw [show 1 + (arr.length * sk + 31) / 32 = (arr.length * sk + 31) / 32 + 1 from by omega,
      List.take_succ_cons]
    congr 1
    exact List.take_left' hW
  have hdroptail : ((sk + arr.length * 2 ^ 8 + (ovEscapes sk zz arr).length * 2 ^ 24) ::
      (wordsOf (packLE sk (ovTokens sk zz arr)) ((arr.length * sk + 31) / 32) ++
        ovEscapes sk zz arr)).drop (1 + (arr.length * sk + 31) / 32) =
      ovEscapes sk zz arr := by
    rw [show 1 + (arr.length * sk + 31) / 32 = (arr.length * sk + 31) / 32 + 1 from by omega,
      List.drop_succ_cons]
    exact List.drop_left' hW
  rw [htake, hdroptail]
  have hdrop1 : ((sk + arr.length * 2 ^ 8 + (ovEscapes sk zz arr).length * 2 ^ 24) ::
      wordsOf (packLE sk (ovTokens sk zz arr)) ((arr.length * sk + 31) / 32)).drop 1 =
      wordsOf (packLE sk (ovTokens sk zz arr)) ((arr.length * sk + 31) / 32) := rfl
  rw [hdrop1, packLE_wordsOf]
  have hTlt : packLE sk (ovTokens sk zz arr) <
      2 ^ (32 * ((arr.length * sk + 31) / 32)) := by
    calc packLE sk (ovTokens sk zz arr) < 2 ^ (sk * (ovTokens sk zz arr).length) :=
        packLE_lt sk _ htoklt
      _ ≤ 2 ^ (32 * ((arr.length * sk + 31) / 32)) := by
        apply Nat.pow_le_pow_right (by norm_num)
        rw [htoklen]
        have hx : sk * arr.length = arr.length * sk := Nat.mul_comm _ _
        omega
  rw [Nat.mod_eq_of_lt hTlt]
  have hext : extractToks sk arr.length (0 + 2 ^ 0 * packLE sk (ovTokens sk zz arr)) =
      ovTokens sk zz arr := by
    rw [pow_zero, one_mul, Nat.zero_add]
    have := extractToks_packLE sk (ovTokens sk zz arr) htoklt
      (ovTokens sk zz arr).length (le_refl _)
    rw [htoklen] at this
    simpa [htoklen] using this
  rw [hext]
  exact unescape_ovTokens sk zz hsk1 arr hfits

/-! ### Compressed stream lengths -/

theorem ceilDiv_le_iff (a m c : Nat) (hm : 0 < m) : (a + m - 1) / m ≤ c ↔ a ≤ m * c := by
  constructor
  · intro h
    by_contra hc
    push_neg at hc
    have h2 : (c + 1) * m ≤ a + m - 1 := by
      have hx : (c + 1) * m = m * c + m := by ring
      omega
    have := (Nat.le_div_iff_mul_le hm).mpr h2
    omega
  · intro h
    have h2 : a + m - 1 < (c + 1) * m := by
      have hx : (c + 1) * m = m * c + m := by ring
      omega
    have := (Nat.div_lt_iff_lt_mul hm).mpr h2
    omega

theorem ceilDiv_ge (a m : Nat) (hm : 0 < m) : a ≤ m * ((a + m - 1) / m) :=
  (ceilDiv_le_iff a m _ hm).mp (le_refl _)

theorem crossCompress_length (k : Nat) (zz : Bool) (arr : List Int) :
    (PackedCross.compress k zz arr).length = 1 + (arr.length * k + 31) / 32 := by
  rw [crossCompress_eq]
  simp [wordsOf_length]
  omega

theorem alignedWords_length (k p : Nat) (hp : 1 ≤ p) :
    ∀ n (toks : List Nat), toks.length ≤ n →
      (alignedWords k p toks).length = (toks.length + p - 1) / p := by
  intro n
  induction n with
  | zero =>
    intro toks hn
    have : toks = [] := List.eq_nil_of_length_eq_zero (by omega)
    subst this
    rw [alignedWords_nil]
    simp only [List.length_nil]
    rw [show (0 : Nat) + p - 1 = p - 1 from by omega, Nat.div_eq_of_lt (by omega)]
  | succ n ih =>
    intro toks hn
    by_cases hnil : toks = []
    · subst hnil
      rw [alignedWords_nil]
      simp only [List.length_nil]
      rw [show (0 : Nat) + p - 1 = p - 1 from by omega, Nat.div_eq_of_lt (by omega)]
    by_cases hshort : toks.length ≤ p
    · rw [alignedWords_short k p toks hnil hshort]
      have h1 : 1 ≤ toks.length := by
        cases toks with
        | nil => exact absurd rfl hnil
        | cons a l => simp
      have h2 : toks.length + p - 1 = p + (toks.length - 1) := by omega
      rw [List.length_singleton, h2, Nat.add_div_left _ hp,
        Nat.div_eq_of_lt (show toks.length - 1 < p from by omega)]
    · push_neg at hshort
      rw [alignedWords_chunk k p toks hp (le_of_lt hshort)]
      have hdroplen : (toks.drop p).length = toks.length - p := List.length_drop p toks
      have hih := ih (toks.drop p) (by omega)
      rw [hdroplen] at hih
      rw [List.length_cons, hih]
      have h1 : toks.length + p - 1 = (toks.length - p + p - 1) + p := by omega
      rw [h1, Nat.add_div_right _ hp]

theorem alignedCompress_length (k : Nat) (zz : Bool) (arr : List Int)
    (hk1 : 1 ≤ k) (hk32 : k ≤ 32) :
    (PackedAligned.compress k zz arr).length =
      1 + (arr.length + 32 / k - 1) / (32 / k) := by
  rw [alignedCompress_eq k zz arr hk1 hk32]
  have hp : 1 ≤ 32 / k := (Nat.one_le_div_iff (by omega)).mpr hk32
  rw [List.length_cons,
    alignedWords_length k (32 / k) hp (arr.map (maskVal k zz)).length _ (le_refl _)]
  simp only [List.length_map]
  omega

theorem emitWordsI_len (f : Nat) : ∀ (bs : Int) (bl : Nat) (out : List Nat),
    (emitWordsI f bs bl out).2.1 = bl - 32 * f ∧
    (emitWordsI f bs bl out).2.2.length = out.length + f := by
  induction f with
  | zero => intro bs bl out; exact ⟨by simp [emitWordsI], by simp [emitWordsI]⟩
  | succ f ih =>
    intro bs bl out
    simp only [emitWordsI]
    obtain ⟨h1, h2⟩ :=
      ih (bs >>> (32 : Nat)) (bl - 32) (out ++ [(Int.land bs (WORD_MASK : Int)).toNat])
    refine ⟨by rw [h1]; omega, ?_⟩
    rw [h2, List.length_append, List.length_cons, List.length_nil]
    omega

/-- The source compress loop on **any** input (negative values included):
the final bitlen, the emitted word count, and the overflow tail depend only
on the bitlen arithmetic and the escape condition, which never fail. -/
theorem ovLoop_shape (sk : Nat) (zz : Bool) :
    ∀ (arr : List Int) (bs : Int) (bl : Nat) (om ov : List Nat), bl < 32 →
      (OverflowPacking.compressLoop sk zz arr bs bl om ov).2.1 =
          (bl + arr.length * sk) % 32 ∧
        (OverflowPacking.compressLoop sk zz arr bs bl om ov).2.2.1.length =
          om.length + (bl + arr.length * sk) / 32 ∧
        (OverflowPacking.compressLoop sk zz arr bs bl om ov).2.2.2 =
          ov ++ ovEscapes sk zz arr := by
  intro arr
  induction arr with
  | nil =>
    intro bs bl om ov hbl
    simp only [OverflowPacking.compressLoop, List.length_nil, ovEscapes_nil,
      List.append_nil]
    exact ⟨by omega, by omega, trivial⟩
  | cons v rest ih =>
    intro bs bl om ov hbl
    simp only [OverflowPacking.compressLoop, List.length_cons]
    obtain ⟨he1, he2⟩ := emitWordsI_len ((bl + sk) / 32)
      (Int.lor bs
        ((if (if zz then zigzag_encode v else v) ≤ (2 ^ sk : Int) - 2 then
          (if zz then zigzag_encode v else v) else (2 ^ sk : Int) - 1) <<< (bl : Int)))
      (bl + sk) om
    have hblm : bl + sk - 32 * ((bl + sk) / 32) = (bl + sk) % 32 := by omega
    obtain ⟨h1, h2, h3⟩ := ih
      (emitWordsI ((bl + sk) / 32)
        (Int.lor bs
          ((if (if zz then zigzag_encode v else v) ≤ (2 ^ sk : Int) - 2 then
            (if zz then zigzag_encode v else v) else (2 ^ sk : Int) - 1) <<< (bl : Int)))
        (bl + sk) om).1
      (emitWordsI ((bl + sk) / 32)
        (Int.lor bs
          ((if (if zz then zigzag_encode v else v) ≤ (2 ^ sk : Int) - 2 then
            (if zz then zigzag_encode v else v) else (2 ^ sk : Int) - 1) <<< (bl : Int)))
        (bl + sk) om).2.1
      (emitWordsI ((bl + sk) / 32)
        (Int.lor bs
          ((if (if zz then zigzag_encode v else v) ≤ (2 ^ sk : Int) - 2 then
            (if zz then zigzag_encode v else v) else (2 ^ sk : Int) - 1) <<< (bl : Int)))
        (bl + sk) om).2.2
      (if (if zz then zigzag_encode v else v) ≤ (2 ^ sk : Int) - 2 then ov
        else ov ++ [(if zz then zigzag_encode v else v).toNat])
      (by rw [he1, hblm]; exact Nat.mod_lt _ (by norm_num))
    have hRk : (rest.length + 1) * sk = rest.length * sk + sk := by ring
    refine ⟨?_, ?_, ?_⟩
    · rw [h1, he1, hblm]
      omega
    · rw [h2, he2, he1, hblm]
      omega
    · rw [h3]
      by_cases hesc : (if zz then zigzag_encode v else v) ≤ (2 ^ sk : Int) - 2
      · rw [if_pos hesc, ovEscapes_cons_inline sk zz v rest hesc]
      · rw [if_neg hesc, ovEscapes_cons_escape sk zz v rest (not_le.mp hesc),
          List.append_assoc]
        rfl

theorem overflowCompress_length (sk : Nat) (zz : Bool) (arr : List Int) :
    (OverflowPacking.compress sk zz arr).length =
      1 + (arr.length * sk + 31) / 32 + (ovEscapes sk zz arr).length := by
  unfold OverflowPacking.compress
  obtain ⟨h1, h2, h3⟩ := ovLoop_shape sk zz arr 0 0 [] [] (by norm_num)
  by_cases hbl : (OverflowPacking.compressLoop sk zz arr 0 0 [] []).2.1 ≠ 0
  · have hb : (0 + arr.length * sk) % 32 ≠ 0 := h1 ▸ hbl
    simp only [if_pos hbl, List.length_cons, List.length_append, h2, h3,
      List.length_nil, List.nil_append]
    omega
  · have hb : ¬ (0 + arr.length * sk) % 32 ≠ 0 := h1 ▸ hbl
    simp only [if_neg hbl, List.length_cons, List.length_append, h2, h3,
      List.length_nil, List.nil_append]
    omega

/-! ### Claim theorems -/

/-- C1: for every mode (cross, aligned, overflow) and every admissible pair
`(A, params)` — length of `A` at most 65535, values fitting in `k` bits for
cross/aligned (after ZigZag when enabled), at most 255 escaping values for
overflow — `decompress (compress A params)` reproduces `A` exactly. -/
theorem claim_C1 (zz : Bool) :
    (∀ (k : Nat) (arr out0 : List Int), 1 ≤ k → k ≤ 32 → arr.length ≤ 65535 →
      (∀ v ∈ arr, fitsVal k zz v) →
      PackedCross.decompress zz (PackedCross.compress k zz arr) out0 = some arr) ∧
    (∀ (k : Nat) (arr out0 : List Int), 1 ≤ k → k ≤ 32 → arr.length ≤ 65535 →
      (∀ v ∈ arr, fitsVal k zz v) →
      PackedAligned.decompress zz (PackedAligned.compress k zz arr) out0 = some arr) ∧
    (∀ (small_k : Nat) (arr out0 : List Int), 1 ≤ small_k → small_k < 32 →
      arr.length ≤ 65535 → (ovEscapes small_k zz arr).length ≤ 255 →
      (∀ v ∈ arr, fitsOv zz v) →
      OverflowPacking.decompress zz (OverflowPacking.compress small_k zz arr) out0 =
        some arr) := by
  refine ⟨?_, ?_, ?_⟩
  · intro k arr out0 hk1 hk32 hlen hfits
    rw [crossDecompress_compress k zz arr hk1 hk32 hlen out0,
      List.map_congr_left fun v hv => decOut_maskVal k zz v (hfits v hv), List.map_id']
  · intro k arr out0 hk1 hk32 hlen hfits
    rw [alignedDecompress_compress k zz arr hk1 hk32 hlen out0,
      List.map_congr_left fun v hv => decOut_maskVal k zz v (hfits v hv), List.map_id']
  · intro sk arr out0 hsk1 hsk32 hlen hoc hfits
    exact overflowDecompress_compress sk zz arr hsk1 hsk32 hlen hoc hfits out0

theorem claim_C1_witness :
    (((1 : Nat) ≤ 5 ∧ (5 : Nat) ≤ 32 ∧ ([1, 2, 3] : List Int).length ≤ 65535 ∧
        (∀ v ∈ ([1, 2, 3] : List Int), fitsVal 5 false v)) ∧
      PackedCross.decompress false (PackedCross.compress 5 false [1, 2, 3]) [] =
        some [1, 2, 3]) ∧
    (PackedAligned.decompress false (PackedAligned.compress 5 false [1, 2, 3]) [] =
        some [1, 2, 3]) ∧
    ((∀ v ∈ ([1, 2, 1000000, 3] : List Int), fitsOv false v) ∧
      OverflowPacking.decompress false (OverflowPacking.compress 4 false [1, 2, 1000000, 3])
        [] = some [1, 2, 1000000, 3]) := by
  have hfits : ∀ v ∈ ([1, 2, 3] : List Int), fitsVal 5 false v := by
    intro v hv
    simp only [fitsVal, Bool.false_eq_true, if_false]
    fin_cases hv <;> exact ⟨by decide, by decide⟩
  have hfitso : ∀ v ∈ ([1, 2, 1000000, 3] : List Int), fitsOv false v := by
    intro v hv
    simp only [fitsOv, Bool.false_eq_true, if_false]
    fin_cases hv <;> exact ⟨by decide, by decide⟩
  exact ⟨⟨⟨by decide, by decide, by decide, hfits⟩,
      (claim_C1 false).1 5 [1, 2, 3] [] (by decide) (by decide) (by decide) hfits⟩,
    (claim_C1 false).2.1 5 [1, 2, 3] [] (by decide) (by decide) (by decide) hfits,
    ⟨hfitso, (claim_C1 false).2.2 4 [1, 2, 1000000, 3] [] (by decide) (by decide)
      (by decide) (by decide) hfitso⟩⟩

theorem decOut_maskVal_false (k : Nat) (v : Int) :
    decOut false (maskVal k false v) = v % (2 ^ k : Int) := by
  unfold decOut maskVal
  simp only [Bool.false_eq_true, if_false]
  exact Int.toNat_of_nonneg (Int.emod_nonneg v (by positivity))

/-- C10: for every input list of length at most 65535 handed to cross or
aligned compress without ZigZag, compress succeeds even when values need
more than `k` bits: each value is masked to its low `k` bits, so
`decompress (compress A)` equals the list of `A`'s elements reduced modulo
`2 ^ k`, and no error is ever raised for oversized values. -/
theorem claim_C10 (k : Nat) (arr out0 : List Int) (hk1 : 1 ≤ k) (hk32 : k ≤ 32)
    (hlen : arr.length ≤ 65535) :
    PackedCross.decompress false (PackedCross.compress k false arr) out0 =
        some (arr.map (· % (2 ^ k : Int))) ∧
      PackedAligned.decompress false (PackedAligned.compress k false arr) out0 =
        some (arr.map (· % (2 ^ k : Int))) := by
  constructor
  · rw [crossDecompress_compress k false arr hk1 hk32 hlen out0,
      List.map_congr_left fun v _ => decOut_maskVal_false k v]
  · rw [alignedDecompress_compress k false arr hk1 hk32 hlen out0,
      List.map_congr_left fun v _ => decOut_maskVal_false k v]

theorem claim_C10_witness :
    ((1 : Nat) ≤ 1 ∧ (1 : Nat) ≤ 32 ∧ ([2, -3] : List Int).length ≤ 65535) ∧
    PackedCross.decompress false (PackedCross.compress 1 false [2, -3]) [] =
        some [0, 1] ∧
    PackedAligned.decompress false (PackedAligned.compress 1 false [2, -3]) [] =
        some [0, 1] := by
  have h := claim_C10 1 [2, -3] [] (by decide) (by decide) (by decide)
  have hmap : ([2, -3] : List Int).map (· % (2 ^ 1 : Int)) = [0, 1] := by decide
  rw [hmap] at h
  exact ⟨⟨by decide, by decide, by decide⟩, h⟩

theorem claim_C3_counterexample :
    PackedCross.compress 1 false [2] = [65537, 0] ∧
    PackedAligned.compress 1 false [2] = [65537, 0] ∧
    PackedCross.decompress false (PackedCross.compress 1 false [2]) [] = some [0] := by
  refine ⟨by decide, by decide, by decide⟩

/-- C3 (amended): compress never signals a value-range error.  For every
input — values of any size, any length, any overflow count — each compress
runs to completion: cross/aligned mask each value to its low `k` bits
(`maskVal`), and the header fields silently truncate the length to 16 bits
and the overflow count to 8 bits.  For overflow mode, the exact stream
shape is stated on inputs whose (ZigZag-transformed) values are
nonnegative (the region where Python's int bitstream stays nonnegative);
completion on *every* input, negative values included, is witnessed
unconditionally by the length equation of the last conjunct. -/
theorem claim_C3_amended (k sk : Nat) (zz : Bool) (arr : List Int)
    (hk1 : 1 ≤ k) (hk32 : k ≤ 32) (hsk1 : 1 ≤ sk) (hsk32 : sk < 32) :
    PackedCross.compress k zz arr =
      (k + arr.length % 2 ^ 16 * 2 ^ 16) ::
        wordsOf (packLE k (arr.map (maskVal k zz))) ((arr.length * k + 31) / 32) ∧
    PackedAligned.compress k zz arr =
      (k + arr.length % 2 ^ 16 * 2 ^ 16) ::
        alignedWords k (32 / k) (arr.map (maskVal k zz)) ∧
    ((∀ v ∈ arr, 0 ≤ (if zz then zigzag_encode v else v)) →
      OverflowPacking.compress sk zz arr =
        (sk + arr.length % 2 ^ 16 * 2 ^ 8 +
            (ovEscapes sk zz arr).length % 2 ^ 8 * 2 ^ 24) ::
          (wordsOf (packLE sk (ovTokens sk zz arr)) ((arr.length * sk + 31) / 32) ++
            ovEscapes sk zz arr)) ∧
    (OverflowPacking.compress sk zz arr).length =
      1 + (arr.length * sk + 31) / 32 + (ovEscapes sk zz arr).length := by
  have hhdr := crossHeader_eq k arr.length (by omega)
  have hhdr2 := overflowHeader_eq sk arr.length (ovEscapes sk zz arr).length (by omega)
  refine ⟨?_, ?_, ?_, ?_⟩
  · rw [crossCompress_eq, hhdr]
  · rw [alignedCompress_eq k zz arr hk1 hk32, hhdr]
  · intro hnn
    rw [overflowCompress_eq sk zz arr hnn, hhdr2]
  · exact overflowCompress_length sk zz arr

theorem claim_C3_amended_witness :
    ((1 : Nat) ≤ 1 ∧ (1 : Nat) ≤ 32 ∧ (1 : Nat) < 32) ∧
    (PackedCross.compress 1 false [2] =
      (1 + ([2] : List Int).length % 2 ^ 16 * 2 ^ 16) ::
        wordsOf (packLE 1 (([2] : List Int).map (maskVal 1 false)))
          ((([2] : List Int).length * 1 + 31) / 32)) ∧
    (OverflowPacking.compress 1 false [2, -7] ).length =
      1 + (([2, -7] : List Int).length * 1 + 31) / 32 +
        (ovEscapes 1 false [2, -7]).length :=
  ⟨⟨by decide, by decide, by decide⟩,
    (claim_C3_amended 1 1 false [2] (by decide) (by decide) (by decide) (by decide)).1,
    (claim_C3_amended 1 1 false [2, -7] (by decide) (by decide) (by decide)
      (by decide)).2.2.2⟩

/-- C4: for every input of length `n` (admissible or not), the compressed
stream length in words is exactly `1 + ⌈n·k/32⌉` for cross mode,
`1 + ⌈n / ⌊32/k⌋⌉` for aligned mode, and `1 + ⌈n·small_k/32⌉ +
overflow_count` for overflow mode. -/
theorem claim_C4 (k sk : Nat) (zz : Bool) (arr : List Int)
    (hk1 : 1 ≤ k) (hk32 : k ≤ 32) (hsk1 : 1 ≤ sk) :
    (PackedCross.compress k zz arr).length = 1 + (arr.length * k + 31) / 32 ∧
    (PackedAligned.compress k zz arr).length =
      1 + (arr.length + 32 / k - 1) / (32 / k) ∧
    (OverflowPacking.compress sk zz arr).length =
      1 + (arr.length * sk + 31) / 32 + (ovEscapes sk zz arr).length :=
  ⟨crossCompress_length k zz arr, alignedCompress_length k zz arr hk1 hk32,
    overflowCompress_length sk zz arr⟩

theorem claim_C4_witness :
    ((1 : Nat) ≤ 5 ∧ (5 : Nat) ≤ 32 ∧ (1 : Nat) ≤ 4) ∧
    (PackedCross.compress 5 false [1, 2, 3]).length =
      1 + (([1, 2, 3] : List Int).length * 5 + 31) / 32 ∧
    (PackedAligned.compress 5 false [1, 2, 3]).length =
      1 + (([1, 2, 3] : List Int).length + 32 / 5 - 1) / (32 / 5) ∧
    (OverflowPacking.compress 4 false [1, 2, 3]).length =
      1 + (([1, 2, 3] : List Int).length * 4 + 31) / 32 +
        (ovEscapes 4 false [1, 2, 3]).length :=
  ⟨⟨by decide, by decide, by decide⟩,
    claim_C4 5 4 false [1, 2, 3] (by decide) (by decide) (by decide)⟩

theorem claim_C5_counterexample :
    (PackedCross.compress 5 false [1]).length =
        (PackedAligned.compress 5 false [1]).length ∧
      32 % 5 ≠ 0 := ⟨by decide, by decide⟩

/-- C5 (amended): for every `k ∈ [1, 32]` the cross-mode stream is never
longer than the aligned-mode one, and it has the same length for **every**
array iff `32 mod k = 0`; for particular short arrays the lengths can
coincide even when `32 mod k ≠ 0`. -/
theorem claim_C5_amended (k : Nat) (zz : Bool) (hk1 : 1 ≤ k) (hk32 : k ≤ 32) :
    (∀ arr : List Int,
      (PackedCross.compress k zz arr).length ≤ (PackedAligned.compress k zz arr).length) ∧
    ((∀ arr : List Int,
      (PackedCross.compress k zz arr).length = (PackedAligned.compress k zz arr).length) ↔
      32 % k = 0) := by
  have hp : 1 ≤ 32 / k := (Nat.one_le_div_iff (by omega)).mpr hk32
  have hkp : k * (32 / k) ≤ 32 := by
    rw [Nat.mul_comm]
    exact Nat.div_mul_le_self 32 k
  have hle : ∀ arr : List Int,
      (PackedCross.compress k zz arr).length ≤ (PackedAligned.compress k zz arr).length := by
    intro arr
    rw [crossCompress_length k zz arr, alignedCompress_length k zz arr hk1 hk32]
    have h1 : arr.length ≤ (32 / k) * ((arr.length + 32 / k - 1) / (32 / k)) :=
      ceilDiv_ge arr.length (32 / k) hp
    have h2 : (arr.length * k + 31) / 32 ≤ (arr.length + 32 / k - 1) / (32 / k) := by
      rw [show arr.length * k + 31 = arr.length * k + 32 - 1 from by omega,
        ceilDiv_le_iff _ 32 _ (by norm_num)]
      calc arr.length * k ≤ (32 / k * ((arr.length + 32 / k - 1) / (32 / k))) * k :=
          Nat.mul_le_mul_right _ h1
        _ = (k * (32 / k)) * ((arr.length + 32 / k - 1) / (32 / k)) := by ring
        _ ≤ 32 * ((arr.length + 32 / k - 1) / (32 / k)) :=
          Nat.mul_le_mul_right _ hkp
    omega
  refine ⟨hle, ?_, ?_⟩
  · intro hall
    by_contra h32
    have hpk : k * (32 / k) < 32 := by
      have := Nat.div_add_mod 32 k
      have hmlt : 32 % k ≠ 0 := h32
      omega
    have h1 := hall (List.replicate 32 (0 : Int))
    rw [crossCompress_length, alignedCompress_length _ _ _ hk1 hk32,
      List.length_replicate] at h1
    have hcross : (32 * k + 31) / 32 = k := by omega
    rw [hcross] at h1
    have halign : ¬ ((32 + 32 / k - 1) / (32 / k) ≤ k) := by
      rw [ceilDiv_le_iff _ _ _ hp]
      rw [show 32 / k * k = k * (32 / k) from Nat.mul_comm _ _]
      omega
    omega
  · intro h32 arr
    have hpk : k * (32 / k) = 32 := by
      have := Nat.div_add_mod 32 k
      omega
    rw [crossCompress_length k zz arr, alignedCompress_length k zz arr hk1 hk32]
    have h2 : (arr.length * k + 31) / 32 ≤ (arr.length + 32 / k - 1) / (32 / k) := by
      have h1 : arr.length ≤ (32 / k) * ((arr.length + 32 / k - 1) / (32 / k)) :=
        ceilDiv_ge arr.length (32 / k) hp
      rw [show arr.length * k + 31 = arr.length * k + 32 - 1 from by omega,
        ceilDiv_le_iff _ 32 _ (by norm_num)]
      calc arr.length * k ≤ (32 / k * ((arr.length + 32 / k - 1) / (32 / k))) * k :=
          Nat.mul_le_mul_right _ h1
        _ = (k * (32 / k)) * ((arr.length + 32 / k - 1) / (32 / k)) := by ring
        _ = 32 * ((arr.length + 32 / k - 1) / (32 / k)) := by rw [hpk]
    have h3 : (arr.length + 32 / k - 1) / (32 / k) ≤ (arr.length * k + 31) / 32 := by
      rw [ceilDiv_le_iff _ _ _ hp]
      have h4 : arr.length * k ≤ 32 * ((arr.length * k + 31) / 32) := by
        have := ceilDiv_ge (arr.length * k) 32 (by norm_num)
        omega
      have h5 : k * arr.length ≤ k * ((32 / k) * ((arr.length * k + 31) / 32)) := by
        calc k * arr.length = arr.length * k := Nat.mul_comm _ _
          _ ≤ 32 * ((arr.length * k + 31) / 32) := h4
          _ = (k * (32 / k)) * ((arr.length * k + 31) / 32) := by rw [hpk]
          _ = k * ((32 / k) * ((arr.length * k + 31) / 32)) := by ring
      exact Nat.le_of_mul_le_mul_left h5 (by omega)
    omega

theorem claim_C5_amended_witness :
    ((1 : Nat) ≤ 8 ∧ (8 : Nat) ≤ 32) ∧
    (PackedCross.compress 8 false [1, 2, 3]).length ≤
        (PackedAligned.compress 8 false [1, 2, 3]).length ∧
    ((32 % 8 = 0) ∧
      (PackedCross.compress 8 false [9] ).length =
        (PackedAligned.compress 8 false [9]).length) := by
  have h := claim_C5_amended 8 false (by decide) (by decide)
  exact ⟨⟨by decide, by decide⟩, h.1 [1, 2, 3], by decide, h.2.mpr (by decide) [9]⟩

theorem claim_C9_counterexample :
    PackedCross.decompress false [] [7] = some [7] ∧
    PackedCross.decompress false [] [7] ≠ some [] ∧
    OverflowPacking.decompress false [] [9] = some [9] ∧
    PackedAligned.decompress false [] [7] = none :=
  ⟨by decide, by decide, by decide, by decide⟩

/-- C9 (amended): for every **nonempty** word sequence the output container
is cleared before decoding, so the result is independent of its prior
contents; on the empty sequence cross and overflow return early with the
container untouched, and aligned fails with an index error. -/
theorem claim_C9_amended :
    (∀ (zz : Bool) (w : Nat) (ws : List Nat) (out0 out1 : List Int),
      PackedCross.decompress zz (w :: ws) out0 = PackedCross.decompress zz (w :: ws) out1) ∧
    (∀ (zz : Bool) (w : Nat) (ws : List Nat) (out0 out1 : List Int),
      PackedAligned.decompress zz (w :: ws) out0 =
        PackedAligned.decompress zz (w :: ws) out1) ∧
    (∀ (zz : Bool) (w : Nat) (ws : List Nat) (out0 out1 : List Int),
      OverflowPacking.decompress zz (w :: ws) out0 =
        OverflowPacking.decompress zz (w :: ws) out1) ∧
    (∀ (zz : Bool) (out0 : List Int), PackedCross.decompress zz [] out0 = some out0) ∧
    (∀ (zz : Bool) (out0 : List Int), OverflowPacking.decompress zz [] out0 = some out0) ∧
    (∀ (zz : Bool) (out0 : List Int), PackedAligned.decompress zz [] out0 = none) :=
  ⟨fun _ _ _ _ _ => rfl, fun _ _ _ _ _ => rfl, fun _ _ _ _ _ => rfl,
    fun _ _ => rfl, fun _ _ => rfl, fun _ _ => rfl⟩

/-! ### Random access: the two-word window extraction -/

theorem wordsOf_getD (W : Nat) : ∀ N j, N < 2 ^ (32 * W) →
    (wordsOf N W).getD j 0 = N / 2 ^ (32 * j) % 2 ^ 32 := by
  induction W with
  | zero =>
    intro N j hN
    have : N = 0 := by
      have : (2 : Nat) ^ (32 * 0) = 1 := by norm_num
      omega
    subst this
    simp [wordsOf, Nat.zero_div, Nat.zero_mod]
  | succ W ih =>
    intro N j hN
    cases j with
    | zero => simp [wordsOf]
    | succ j =>
      have hdiv : N / 2 ^ 32 < 2 ^ (32 * W) := by
        rw [Nat.div_lt_iff_lt_mul (Nat.two_pow_pos 32), ← pow_add,
          show 32 * W + 32 = 32 * (W + 1) from by ring]
        exact hN
      have hih := ih (N / 2 ^ 32) j hdiv
      have hstep : (wordsOf N (W + 1)).getD (j + 1) 0 =
          (wordsOf (N / 2 ^ 32) W).getD j 0 := rfl
      rw [hstep, hih, Nat.div_div_eq_div_mul, ← pow_add,
        show 32 + 32 * j = 32 * (j + 1) from by ring]

theorem div_mod_pow_mod (X a b : Nat) (hab : b ≤ a) :
    X % 2 ^ a / 2 ^ b % 2 ^ (a - b) = X / 2 ^ b % 2 ^ (a - b) := by
  rw [show (2 : Nat) ^ a = 2 ^ b * 2 ^ (a - b) from by rw [← pow_add]; congr 1; omega,
    Nat.mod_mul_right_div_self]
  exact Nat.mod_mod_of_dvd _ dvd_rfl

theorem mod_pow_mod_pow (Y a k : Nat) (hk : k ≤ a) :
    Y % 2 ^ a % 2 ^ k = Y % 2 ^ k := by
  apply Nat.mod_mod_of_dvd
  exact pow_dvd_pow 2 hk

/-- The two-word combine of the `get` implementations: if the low word holds
bits `[32w, 32w+32)` of `N` and either the window does not reach into the
next word or the high word holds bits `[32w+32, 32w+64)` of `N`, the
extraction produces the `k` bits of `N` starting at `bitpos`. -/
theorem window_master (B : List Nat) (N k bitpos : Nat) (hk1 : 1 ≤ k) (hk : k ≤ 32)
    (hlow : B.getD (bitpos / 32) 0 = N / 2 ^ (32 * (bitpos / 32)) % 2 ^ 32)
    (hhigh : bitpos % 32 + k ≤ 32 ∨
      B.getD (bitpos / 32 + 1) 0 = N / 2 ^ (32 * (bitpos / 32 + 1)) % 2 ^ 32) :
    ((B.getD (bitpos / 32) 0 ||| (B.getD (bitpos / 32 + 1) 0 <<< 32)) >>>
        (bitpos % 32)) &&& (2 ^ k - 1) =
      N / 2 ^ bitpos % 2 ^ k := by
  have hofflt : bitpos % 32 < 32 := Nat.mod_lt _ (by norm_num)
  have hXdiv : N / 2 ^ bitpos = N / 2 ^ (32 * (bitpos / 32)) / 2 ^ (bitpos % 32) := by
    rw [Nat.div_div_eq_div_mul, ← pow_add]
    congr 2
    omega
  have hlowlt : B.getD (bitpos / 32) 0 < 2 ^ 32 := by
    rw [hlow]
    exact Nat.mod_lt _ (by norm_num)
  rw [lor_shiftLeft_eq_add _ _ hlowlt, and_mask_eq_mod, Nat.shiftRight_eq_div_pow]
  rcases le_or_lt (bitpos % 32 + k) 32 with hcase | hcase
  · rw [hlow, hXdiv]
    rw [show (2 : Nat) ^ 32 = 2 ^ (bitpos % 32) * 2 ^ (32 - bitpos % 32) from by
      rw [← pow_add]; congr 1; omega]
    rw [show B.getD (bitpos / 32 + 1) 0 * (2 ^ (bitpos % 32) * 2 ^ (32 - bitpos % 32)) =
      2 ^ (bitpos % 32) * (B.getD (bitpos / 32 + 1) 0 * 2 ^ (32 - bitpos % 32)) from by
        ring]
    rw [Nat.add_mul_div_left _ _ (Nat.two_pow_pos _)]
    rw [show (2 : Nat) ^ (32 - bitpos % 32) = 2 ^ k * 2 ^ (32 - bitpos % 32 - k) from by
      rw [← pow_add]; congr 1; omega]
    rw [show N / 2 ^ (32 * (bitpos / 32)) % (2 ^ (bitpos % 32) * (2 ^ k *
        2 ^ (32 - bitpos % 32 - k))) / 2 ^ (bitpos % 32) =
      N / 2 ^ (32 * (bitpos / 32)) / 2 ^ (bitpos % 32) % (2 ^ k *
        2 ^ (32 - bitpos % 32 - k)) from Nat.mod_mul_right_div_self _ _ _]
    rw [show B.getD (bitpos / 32 + 1) 0 * (2 ^ k * 2 ^ (32 - bitpos % 32 - k)) =
      (B.getD (bitpos / 32 + 1) 0 * 2 ^ (32 - bitpos % 32 - k)) * 2 ^ k from by ring]
    rw [Nat.add_mul_mod_self_right]
    rw [show (2 : Nat) ^ k * 2 ^ (32 - bitpos % 32 - k) =
      2 ^ (32 - bitpos % 32 - k) * 2 ^ k from by ring]
    rw [Nat.mod_mul_left_mod]
  · rcases hhigh with hh | hh
    · omega
    · rw [hlow, hh, hXdiv]
      have hrecomp : N / 2 ^ (32 * (bitpos / 32)) % 2 ^ 32 +
          N / 2 ^ (32 * (bitpos / 32 + 1)) % 2 ^ 32 * 2 ^ 32 =
          N / 2 ^ (32 * (bitpos / 32)) % 2 ^ 64 := by
        have hd : N / 2 ^ (32 * (bitpos / 32 + 1)) =
            N / 2 ^ (32 * (bitpos / 32)) / 2 ^ 32 := by
          rw [Nat.div_div_eq_div_mul, ← pow_add,
            show 32 * (bitpos / 32) + 32 = 32 * (bitpos / 32 + 1) from by ring]
        rw [hd, show (2 : Nat) ^ 64 = 2 ^ 32 * 2 ^ 32 from by norm_num, Nat.mod_mul]
        ring
      rw [hrecomp]
      have h1 : N / 2 ^ (32 * (bitpos / 32)) % 2 ^ 64 / 2 ^ (bitpos % 32) %
          2 ^ (64 - bitpos % 32) =
          N / 2 ^ (32 * (bitpos / 32)) / 2 ^ (bitpos % 32) % 2 ^ (64 - bitpos % 32) :=
        div_mod_pow_mod _ 64 _ (by omega)
      have h2 : N / 2 ^ (32 * (bitpos / 32)) % 2 ^ 64 / 2 ^ (bitpos % 32) % 2 ^ k =
          N / 2 ^ (32 * (bitpos / 32)) % 2 ^ 64 / 2 ^ (bitpos % 32) %
            2 ^ (64 - bitpos % 32) % 2 ^ k :=
        (mod_pow_mod_pow _ _ _ (by omega)).symm
      rw [h2, h1, mod_pow_mod_pow _ _ _ (by omega)]

theorem packLE_extract (k : Nat) (toks : List Nat) (h : ∀ t ∈ toks, t < 2 ^ k) :
    ∀ j, packLE k toks / 2 ^ (k * j) % 2 ^ k = toks.getD j 0 := by
  induction toks with
  | nil => intro j; simp [packLE]
  | cons t ts ih =>
    have ht : t < 2 ^ k := h t (List.mem_cons_self t ts)
    intro j
    cases j with
    | zero =>
      simp only [packLE, Nat.mul_zero, pow_zero, Nat.div_one, List.getD_cons_zero]
      rw [Nat.add_mul_mod_self_left, Nat.mod_eq_of_lt ht]
    | succ j =>
      have hdiv : (t + 2 ^ k * packLE k ts) / 2 ^ (k * (j + 1)) =
          packLE k ts / 2 ^ (k * j) := by
        rw [show k * (j + 1) = k + k * j from by ring, pow_add, ← Nat.div_div_eq_div_mul,
          Nat.add_mul_div_left _ _ (Nat.two_pow_pos k), Nat.div_eq_of_lt ht, Nat.zero_add]
      show (t + 2 ^ k * packLE k ts) / 2 ^ (k * (j + 1)) % 2 ^ k = ts.getD j 0
      rw [hdiv, ih (fun x hx => h x (List.mem_cons_of_mem t hx)) j]

/-- `PackedCross.get` on a compressed stream returns the decoded token at the
requested index. -/
theorem crossGet_eq (k : Nat) (zz : Bool) (arr : List Int) (hk1 : 1 ≤ k) (hk32 : k ≤ 32)
    (hlen : arr.length ≤ 65535) (idx : Nat) (hidx : idx < arr.length) :
    PackedCross.get zz (PackedCross.compress k zz arr) idx =
      some (decOut zz ((arr.map (maskVal k zz)).getD idx 0)) := by
  rw [crossCompress_eq]
  have hk16 : k < 2 ^ 16 := by omega
  have hmod : arr.length % 2 ^ 16 = arr.length := Nat.mod_eq_of_lt (by omega)
  have hhdr : (k &&& 0xFFFF) ||| ((arr.length &&& 0xFFFF) <<< 16) =
      k + arr.length * 2 ^ 16 := by
    rw [crossHeader_eq k arr.length hk16, hmod]
  rw [hhdr]
  have hfk : (k + arr.length * 2 ^ 16) &&& 0xFFFF = k := field_low k arr.length 16 hk16
  have hfn : ((k + arr.length * 2 ^ 16) >>> 16) &&& 0xFFFF = arr.length := by
    rw [field_shift k arr.length 16 hk16,
      show (0xFFFF : Nat) = 2 ^ 16 - 1 from rfl, and_mask_eq_mod, hmod]
  simp only [PackedCross.get, hfk, hfn, if_pos hidx]
  have htoklt : ∀ t ∈ arr.map (maskVal k zz), t < 2 ^ k := by
    intro t ht
    rcases List.mem_map.mp ht with ⟨v, _, hv⟩
    exact hv ▸ maskVal_lt k zz v
  have hTlt : packLE k (arr.map (maskVal k zz)) <
      2 ^ (32 * ((arr.length * k + 31) / 32)) := by
    calc packLE k (arr.map (maskVal k zz)) < 2 ^ (k * (arr.map (maskVal k zz)).length) :=
        packLE_lt k _ htoklt
      _ ≤ 2 ^ (32 * ((arr.length * k + 31) / 32)) := by
        apply Nat.pow_le_pow_right (by norm_num)
        simp only [List.length_map]
        have hx : k * arr.length = arr.length * k := Nat.mul_comm _ _
        omega
  have hgetlow : ∀ j, ((k + arr.length * 2 ^ 16) :: wordsOf
      (packLE k (arr.map (maskVal k zz))) ((arr.length * k + 31) / 32)).getD (1 + j) 0 =
      (wordsOf (packLE k (arr.map (maskVal k zz))) ((arr.length * k + 31) / 32)).getD
        j 0 := by
    intro j
    rw [show 1 + j = j + 1 from by omega, List.getD_cons_succ]
  rw [hgetlow, show 1 + idx * k / 32 + 1 = 1 + (idx * k / 32 + 1) from by omega, hgetlow]
  rw [window_master _ (packLE k (arr.map (maskVal k zz))) k (idx * k) hk1 hk32
    (wordsOf_getD _ _ _ hTlt) (Or.inr (wordsOf_getD _ _ _ hTlt))]
  rw [show idx * k = k * idx from Nat.mul_comm _ _, packLE_extract k _ htoklt idx]

theorem alignedWords_getD (k p : Nat) (hp : 1 ≤ p) :
    ∀ n (toks : List Nat), toks.length ≤ n → ∀ q,
      (alignedWords k p toks).getD q 0 = packLE k ((toks.drop (p * q)).take p) := by
  intro n
  induction n with
  | zero =>
    intro toks hn q
    have : toks = [] := List.eq_nil_of_length_eq_zero (by omega)
    subst this
    simp [alignedWords_nil, packLE]
  | succ n ih =>
    intro toks hn q
    by_cases hnil : toks = []
    · subst hnil
      simp [alignedWords_nil, packLE]
    by_cases hshort : toks.length ≤ p
    · rw [alignedWords_short k p toks hnil hshort]
      cases q with
      | zero =>
        simp only [List.getD_cons_zero, Nat.mul_zero, List.drop_zero]
        rw [List.take_of_length_le hshort]
      | succ q =>
        have hdropnil : toks.drop (p * (q + 1)) = [] := by
          apply List.drop_eq_nil_of_le
          calc toks.length ≤ p := hshort
            _ ≤ p * (q + 1) := Nat.le_mul_of_pos_right p (by omega)
        rw [hdropnil]
        simp [packLE]
    · push_neg at hshort
      rw [alignedWords_chunk k p toks hp (le_of_lt hshort)]
      cases q with
      | zero =>
        simp only [List.getD_cons_zero, Nat.mul_zero, List.drop_zero]
      | succ q =>
        rw [List.getD_cons_succ]
        have hih := ih (toks.drop p) (by simp [List.length_drop]; omega) q
        rw [hih, List.drop_drop]
        congr 2
        ring

/-- `PackedAligned.get` on a compressed stream returns the decoded token at
the requested index. -/
theorem alignedGet_eq (k : Nat) (zz : Bool) (arr : List Int) (hk1 : 1 ≤ k) (hk32 : k ≤ 32)
    (hlen : arr.length ≤ 65535) (idx : Nat) (hidx : idx < arr.length) :
    PackedAligned.get zz (PackedAligned.compress k zz arr) idx =
      some (decOut zz ((arr.map (maskVal k zz)).getD idx 0)) := by
  rw [alignedCompress_eq k zz arr hk1 hk32]
  have hk16 : k < 2 ^ 16 := by omega
  have hmod : arr.length % 2 ^ 16 = arr.length := Nat.mod_eq_of_lt (by omega)
  have hhdr : (k &&& 0xFFFF) ||| ((arr.length &&& 0xFFFF) <<< 16) =
      k + arr.length * 2 ^ 16 := by
    rw [crossHeader_eq k arr.length hk16, hmod]
  rw [hhdr]
  have hfk : (k + arr.length * 2 ^ 16) &&& 0xFFFF = k := field_low k arr.length 16 hk16
  have hfn : ((k + arr.length * 2 ^ 16) >>> 16) &&& 0xFFFF = arr.length := by
    rw [field_shift k arr.length 16 hk16,
      show (0xFFFF : Nat) = 2 ^ 16 - 1 from rfl, and_mask_eq_mod, hmod]
  have hp : 1 ≤ 32 / k := (Nat.one_le_div_iff (by omega)).mpr hk32
  simp only [PackedAligned.get, hfk, hfn, if_neg (by omega : ¬ k = 0),
    if_neg (by omega : ¬ 32 / k = 0), if_pos hidx, show WORD_BITS = 32 from rfl]
  have htoklt : ∀ t ∈ arr.map (maskVal k zz), t < 2 ^ k := by
    intro t ht
    rcases List.mem_map.mp ht with ⟨v, _, hv⟩
    exact hv ▸ maskVal_lt k zz v
  have hlenW : (alignedWords k (32 / k) (arr.map (maskVal k zz))).length =
      (arr.length + 32 / k - 1) / (32 / k) := by
    have := alignedWords_length k (32 / k) hp (arr.map (maskVal k zz)).length
      (arr.map (maskVal k zz)) (le_refl _)
    simpa using this
  have hidxp : idx / (32 / k) < (arr.length + 32 / k - 1) / (32 / k) := by
    have h1 : idx / (32 / k) ≤ (arr.length - 1) / (32 / k) :=
      Nat.div_le_div_right (by omega)
    have h2 : arr.length + 32 / k - 1 = (arr.length - 1) + (32 / k) := by omega
    rw [h2, Nat.add_div_right _ hp]
    omega
  rw [if_neg (by simp only [List.length_cons, hlenW]; omega)]
  have hgetw : ((k + arr.length * 2 ^ 16) ::
      alignedWords k (32 / k) (arr.map (maskVal k zz))).getD (1 + idx / (32 / k)) 0 =
      packLE k (((arr.map (maskVal k zz)).drop ((32 / k) * (idx / (32 / k)))).take
        (32 / k)) := by
    rw [show 1 + idx / (32 / k) = idx / (32 / k) + 1 from by omega, List.getD_cons_succ]
    exact alignedWords_getD k (32 / k) hp (arr.map (maskVal k zz)).length _ (le_refl _) _
  rw [hgetw]
  have hchunklt : ∀ t ∈ ((arr.map (maskVal k zz)).drop ((32 / k) * (idx / (32 / k)))).take
      (32 / k), t < 2 ^ k := by
    intro t ht
    exact htoklt t (List.mem_of_mem_drop (List.mem_of_mem_take ht))
  rw [Nat.shiftRight_eq_div_pow, show idx % (32 / k) * k = k * (idx % (32 / k)) from
    Nat.mul_comm _ _, and_mask_eq_mod, packLE_extract k _ hchunklt (idx % (32 / k))]
  congr 2
  rw [List.getD_eq_getElem?_getD, List.getD_eq_getElem?_getD,
    List.getElem?_take_of_lt (Nat.mod_lt _ (by omega)), List.getElem?_drop]
  congr 2
  exact Nat.div_add_mod idx (32 / k)

/-- The two-word window read of `OverflowPacking.tokenAt` on a stream whose
body starts with the packed token words recovers token `i`; the tail after
the body is arbitrary (the high word of a non-spanning read may fall into
it, but then its value is masked away). -/
theorem tokenAt_stream (sk hdr : Nat) (toks tail : List Nat) (hsk1 : 1 ≤ sk)
    (hsk32 : sk ≤ 32) (htlt : ∀ t ∈ toks, t < 2 ^ sk) (W : Nat)
    (hW : toks.length * sk ≤ 32 * W) (i : Nat) (hi : i < toks.length) :
    OverflowPacking.tokenAt (hdr :: (wordsOf (packLE sk toks) W ++ tail)) sk i =
      toks.getD i 0 := by
  have hTlt : packLE sk toks < 2 ^ (32 * W) := by
    calc packLE sk toks < 2 ^ (sk * toks.length) := packLE_lt sk toks htlt
      _ ≤ 2 ^ (32 * W) := by
        apply Nat.pow_le_pow_right (by norm_num)
        have hx : sk * toks.length = toks.length * sk := Nat.mul_comm _ _
        omega
  have hilt : i * sk + sk ≤ toks.length * sk := by
    have h1 : (i + 1) * sk ≤ toks.length * sk := Nat.mul_le_mul_right _ (by omega)
    have hexp : (i + 1) * sk = i * sk + sk := by ring
    omega
  have hlenW : (wordsOf (packLE sk toks) W).length = W := wordsOf_length _ _
  have hlowW : i * sk / 32 < W := by
    rw [Nat.div_lt_iff_lt_mul (by norm_num : (0 : Nat) < 32)]
    omega
  have hlow : (wordsOf (packLE sk toks) W ++ tail).getD (i * sk / 32) 0 =
      packLE sk toks / 2 ^ (32 * (i * sk / 32)) % 2 ^ 32 := by
    rw [List.getD_append _ _ _ _ (by rw [hlenW]; exact hlowW)]
    exact wordsOf_getD W _ _ hTlt
  have hhigh : i * sk % 32 + sk ≤ 32 ∨
      (wordsOf (packLE sk toks) W ++ tail).getD (i * sk / 32 + 1) 0 =
        packLE sk toks / 2 ^ (32 * (i * sk / 32 + 1)) % 2 ^ 32 := by
    rcases le_or_lt (i * sk % 32 + sk) 32 with hc | hc
    · exact Or.inl hc
    · refine Or.inr ?_
      have hhiW : i * sk / 32 + 1 < W := by
        have hdm := Nat.div_add_mod (i * sk) 32
        have hmlt : i * sk % 32 < 32 := Nat.mod_lt _ (by norm_num)
        omega
      rw [List.getD_append _ _ _ _ (by rw [hlenW]; omega)]
      exact wordsOf_getD W _ _ hTlt
  simp only [OverflowPacking.tokenAt]
  rw [show 1 + i * sk / 32 = i * sk / 32 + 1 from by omega]
  simp only [List.getD_cons_succ]
  rw [window_master _ (packLE sk toks) sk (i * sk) hsk1 hsk32 hlow hhigh]
  rw [show i * sk = sk * i from Nat.mul_comm _ _, packLE_extract sk toks htlt i]

/-- The escape-token scan of `OverflowPacking.get` counts the escape tokens
among the first `idx` tokens. -/
theorem scanCount_stream (sk hdr : Nat) (toks tail : List Nat) (hsk1 : 1 ≤ sk)
    (hsk32 : sk ≤ 32) (htlt : ∀ t ∈ toks, t < 2 ^ sk) (W : Nat)
    (hW : toks.length * sk ≤ 32 * W) :
    ∀ idx, idx ≤ toks.length →
      OverflowPacking.scanCount (hdr :: (wordsOf (packLE sk toks) W ++ tail)) sk idx =
        (toks.take idx).countP (fun t => t = 2 ^ sk - 1) := by
  intro idx
  induction idx with
  | zero => intro _; rfl
  | succ i ih =>
    intro hle
    have hi : i < toks.length := by omega
    simp only [OverflowPacking.scanCount]
    rw [ih (by omega), tokenAt_stream sk hdr toks tail hsk1 hsk32 htlt W hW i hi]
    rw [List.take_succ, List.countP_append]
    have hgetE : toks[i]? = some (toks.getD i 0) := by
      rw [List.getElem?_eq_getElem hi]
      simp [List.getD_eq_getElem?_getD, List.getElem?_eq_getElem hi]
    rw [hgetE]
    simp [List.countP_cons]

/-- When token `idx` is the escape token, the number of earlier escape tokens
indexes the overflow tail at exactly the (transformed) original value. -/
theorem ovEscape_index (sk : Nat) (zz : Bool) (hsk1 : 1 ≤ sk) :
    ∀ (arr : List Int) (idx : Nat), idx < arr.length →
      (ovTokens sk zz arr).getD idx 0 = 2 ^ sk - 1 →
      ((ovTokens sk zz arr).take idx).countP (fun t => t = 2 ^ sk - 1) <
          (ovEscapes sk zz arr).length ∧
        (ovEscapes sk zz arr).getD
            (((ovTokens sk zz arr).take idx).countP (fun t => t = 2 ^ sk - 1)) 0 =
          (if zz then zigzag_encode (arr.getD idx 0) else arr.getD idx 0).toNat := by
  intro arr
  induction arr with
  | nil => intro idx h; simp at h
  | cons v rest ih =>
    intro idx hidx htok
    have hsk2 : (2 : Nat) ≤ 2 ^ sk := by
      calc (2 : Nat) = 2 ^ 1 := rfl
        _ ≤ 2 ^ sk := Nat.pow_le_pow_right (by norm_num) hsk1
    have hcast : ((2 ^ sk : Nat) : Int) = (2 ^ sk : Int) := by push_cast; ring
    by_cases hesc : (if zz then zigzag_encode v else v) ≤ (2 ^ sk : Int) - 2
    · have htokv : (if zz then zigzag_encode v else v).toNat ≠ 2 ^ sk - 1 := by
        omega
      cases idx with
      | zero =>
        rw [ovTokens_cons, List.getD_cons_zero, if_pos hesc] at htok
        exact absurd htok htokv
      | succ idx =>
        rw [ovTokens_cons, List.getD_cons_succ] at htok
        have hih := ih idx (by simp at hidx; omega) htok
        rw [ovTokens_cons, ovEscapes_cons_inline sk zz v rest hesc, List.take_succ_cons,
          List.countP_cons, if_pos hesc]
        simp only [decide_eq_true_eq, if_neg htokv, Nat.add_zero, List.getD_cons_succ]
        exact hih
    · have hgt := not_le.mp hesc
      cases idx with
      | zero =>
        rw [ovTokens_cons, ovEscapes_cons_escape sk zz v rest hgt, List.take_zero,
          List.countP_nil]
        simp only [List.getD_cons_zero, List.length_cons]
        exact ⟨by omega, trivial⟩
      | succ idx =>
        rw [ovTokens_cons, List.getD_cons_succ] at htok
        have hih := ih idx (by simp at hidx; omega) htok
        rw [ovTokens_cons, ovEscapes_cons_escape sk zz v rest hgt, List.take_succ_cons,
          List.countP_cons, if_neg hesc]
        simp only [decide_eq_true_eq, eq_self_iff_true, if_true, List.length_cons,
          List.getD_cons_succ]
        have h1 := hih.1
        have h2 := hih.2
        exact ⟨by omega, h2⟩

theorem ovTokens_getD (sk : Nat) (zz : Bool) (arr : List Int) (idx : Nat)
    (h : idx < arr.length) :
    (ovTokens sk zz arr).getD idx 0 =
      (if (if zz then zigzag_encode (arr.getD idx 0) else arr.getD idx 0) ≤
          (2 ^ sk : Int) - 2 then
        (if zz then zigzag_encode (arr.getD idx 0) else arr.getD idx 0).toNat
      else 2 ^ sk - 1) := by
  unfold ovTokens
  simp [List.getD_eq_getElem?_getD, List.getElem?_map, List.getElem?_eq_getElem h]

/-- `OverflowPacking.get` on a compressed stream returns the original value at
the requested index: inline for small values, from the overflow tail for
escaped ones. -/
theorem overflowGet_eq (sk : Nat) (zz : Bool) (arr : List Int) (hsk1 : 1 ≤ sk)
    (hsk32 : sk < 32) (hlen : arr.length ≤ 65535)
    (hfits : ∀ v ∈ arr, fitsOv zz v) (idx : Nat) (hidx : idx < arr.length) :
    OverflowPacking.get zz (OverflowPacking.compress sk zz arr) idx =
      some (arr.getD idx 0) := by
  have hnn : ∀ v ∈ arr, 0 ≤ (if zz then zigzag_encode v else v) :=
    fun v hv => (decOut_encVal zz v (hfits v hv)).1
  rw [overflowCompress_eq sk zz arr hnn]
  have hsk8 : sk < 2 ^ 8 := by omega
  have hmodn : arr.length % 2 ^ 16 = arr.length := Nat.mod_eq_of_lt (by omega)
  rw [overflowHeader_eq sk arr.length (ovEscapes sk zz arr).length hsk8]
  have hfsk := ovField_sk sk arr.length (ovEscapes sk zz arr).length hsk8
  have hfn : ((sk + arr.length % 2 ^ 16 * 2 ^ 8 +
      (ovEscapes sk zz arr).length % 2 ^ 8 * 2 ^ 24) >>> 8) &&& 0xFFFF = arr.length := by
    rw [ovField_n sk arr.length (ovEscapes sk zz arr).length hsk8, hmodn]
  have hln : (ovTokens sk zz arr).length = arr.length := by
    unfold ovTokens
    exact List.length_map _ _
  have hW : (ovTokens sk zz arr).length * sk ≤ 32 * ((arr.length * sk + 31) / 32) := by
    rw [hln, show arr.length * sk + 31 = arr.length * sk + 32 - 1 from by omega]
    exact ceilDiv_ge _ 32 (by norm_num)
  have harr : arr.getD idx 0 = arr[idx] := by
    simp [List.getD_eq_getElem?_getD, List.getElem?_eq_getElem hidx]
  have hmem : arr.getD idx 0 ∈ arr := harr ▸ List.getElem_mem hidx
  have hdec := decOut_encVal zz (arr.getD idx 0) (hfits _ hmem)
  simp only [OverflowPacking.get, hfsk, hfn, show WORD_BITS = 32 from rfl]
  rw [if_pos hidx]
  rw [tokenAt_stream sk _ (ovTokens sk zz arr) (ovEscapes sk zz arr) hsk1
    (by omega) (ovTokens_lt sk zz arr) ((arr.length * sk + 31) / 32) hW idx
    (by rw [hln]; exact hidx)]
  by_cases htok : (ovTokens sk zz arr).getD idx 0 = 2 ^ sk - 1
  · rw [if_pos htok]
    rw [scanCount_stream sk _ (ovTokens sk zz arr) (ovEscapes sk zz arr) hsk1
      (by omega) (ovTokens_lt sk zz arr) ((arr.length * sk + 31) / 32) hW idx
      (by rw [hln]; omega)]
    have hesc := ovEscape_index sk zz hsk1 arr idx hidx htok
    rw [show arr.length * sk + 32 - 1 = arr.length * sk + 31 from by omega]
    have hlens : ((sk + arr.length % 2 ^ 16 * 2 ^ 8 +
        (ovEscapes sk zz arr).length % 2 ^ 8 * 2 ^ 24) ::
        (wordsOf (packLE sk (ovTokens sk zz arr)) ((arr.length * sk + 31) / 32) ++
          ovEscapes sk zz arr)).length =
        1 + ((arr.length * sk + 31) / 32 + (ovEscapes sk zz arr).length) := by
      simp [wordsOf_length]
      omega
    rw [if_pos (by rw [hlens]; omega)]
    have hget : ((sk + arr.length % 2 ^ 16 * 2 ^ 8 +
        (ovEscapes sk zz arr).length % 2 ^ 8 * 2 ^ 24) ::
        (wordsOf (packLE sk (ovTokens sk zz arr)) ((arr.length * sk + 31) / 32) ++
          ovEscapes sk zz arr)).getD
        (1 + (arr.length * sk + 31) / 32 +
          ((ovTokens sk zz arr).take idx).countP (fun t => t = 2 ^ sk - 1)) 0 =
        (ovEscapes sk zz arr).getD
          (((ovTokens sk zz arr).take idx).countP (fun t => t = 2 ^ sk - 1)) 0 := by
      rw [show 1 + (arr.length * sk + 31) / 32 +
          ((ovTokens sk zz arr).take idx).countP (fun t => t = 2 ^ sk - 1) =
          ((arr.length * sk + 31) / 32 +
            ((ovTokens sk zz arr).take idx).countP (fun t => t = 2 ^ sk - 1)) + 1 from by
        omega]
      rw [List.getD_cons_succ]
      rw [List.getD_append_right _ _ _ _ (by rw [wordsOf_length]; omega)]
      rw [wordsOf_length]
      rw [show (arr.length * sk + 31) / 32 +
          ((ovTokens sk zz arr).take idx).countP (fun t => t = 2 ^ sk - 1) -
          (arr.length * sk + 31) / 32 =
          ((ovTokens sk zz arr).take idx).countP (fun t => t = 2 ^ sk - 1) from by omega]
    rw [hget, hesc.2, hdec.2]
  · rw [if_neg htok]
    rw [ovTokens_getD sk zz arr idx hidx] at htok ⊢
    by_cases hescv : (if zz then zigzag_encode (arr.getD idx 0) else arr.getD idx 0) ≤
        (2 ^ sk : Int) - 2
    · rw [if_pos hescv, hdec.2]
    · rw [if_neg hescv] at htok
      exact absurd rfl htok

/-- C2: for every mode, every admissible input array and every in-range
index, `get` applied to the compressed stream returns the original element,
with the ZigZag decoding applied when configured (admissibility as in the
spec: length at most 65535; values fit in `k` bits after the optional
transform for cross/aligned; 32-bit values for overflow, whose escape
mechanism handles any magnitude). -/
theorem claim_C2 (zz : Bool) :
    (∀ (k : Nat) (arr : List Int) (idx : Nat), 1 ≤ k → k ≤ 32 → arr.length ≤ 65535 →
      (∀ v ∈ arr, fitsVal k zz v) → idx < arr.length →
      PackedCross.get zz (PackedCross.compress k zz arr) idx = some (arr.getD idx 0)) ∧
    (∀ (k : Nat) (arr : List Int) (idx : Nat), 1 ≤ k → k ≤ 32 → arr.length ≤ 65535 →
      (∀ v ∈ arr, fitsVal k zz v) → idx < arr.length →
      PackedAligned.get zz (PackedAligned.compress k zz arr) idx =
        some (arr.getD idx 0)) ∧
    (∀ (sk : Nat) (arr : List Int) (idx : Nat), 1 ≤ sk → sk < 32 → arr.length ≤ 65535 →
      (∀ v ∈ arr, fitsOv zz v) → idx < arr.length →
      OverflowPacking.get zz (OverflowPacking.compress sk zz arr) idx =
        some (arr.getD idx 0)) := by
  refine ⟨?_, ?_, ?_⟩
  · intro k arr idx hk1 hk32 hlen hfits hidx
    rw [crossGet_eq k zz arr hk1 hk32 hlen idx hidx]
    have hmap : (arr.map (maskVal k zz)).getD idx 0 = maskVal k zz (arr.getD idx 0) := by
      simp [List.getD_eq_getElem?_getD, List.getElem?_map, List.getElem?_eq_getElem hidx]
    have harr : arr.getD idx 0 = arr[idx] := by
      simp [List.getD_eq_getElem?_getD, List.getElem?_eq_getElem hidx]
    have hmem : arr.getD idx 0 ∈ arr := harr ▸ List.getElem_mem hidx
    rw [hmap, decOut_maskVal k zz _ (hfits _ hmem)]
  · intro k arr idx hk1 hk32 hlen hfits hidx
    rw [alignedGet_eq k zz arr hk1 hk32 hlen idx hidx]
    have hmap : (arr.map (maskVal k zz)).getD idx 0 = maskVal k zz (arr.getD idx 0) := by
      simp [List.getD_eq_getElem?_getD, List.getElem?_map, List.getElem?_eq_getElem hidx]
    have harr : arr.getD idx 0 = arr[idx] := by
      simp [List.getD_eq_getElem?_getD, List.getElem?_eq_getElem hidx]
    have hmem : arr.getD idx 0 ∈ arr := harr ▸ List.getElem_mem hidx
    rw [hmap, decOut_maskVal k zz _ (hfits _ hmem)]
  · intro sk arr idx hsk1 hsk32 hlen hfits hidx
    exact overflowGet_eq sk zz arr hsk1 hsk32 hlen hfits idx hidx

theorem claim_C2_witness :
    PackedCross.get false (PackedCross.compress 5 false [1, 2, 3]) 1 = some 2 ∧
    PackedAligned.get false (PackedAligned.compress 5 false [1, 2, 3]) 2 = some 3 ∧
    OverflowPacking.get false (OverflowPacking.compress 4 false [1, 2, 1000000, 3]) 2 =
      some 1000000 :=
  ⟨(claim_C2 false).1 5 [1, 2, 3] 1 (by decide) (by decide) (by decide)
      (by intro v hv; fin_cases hv <;> exact ⟨by decide, by decide⟩) (by decide),
    (claim_C2 false).2.1 5 [1, 2, 3] 2 (by decide) (by decide) (by decide)
      (by intro v hv; fin_cases hv <;> exact ⟨by decide, by decide⟩) (by decide),
    (claim_C2 false).2.2 4 [1, 2, 1000000, 3] 2 (by decide) (by decide) (by decide)
      (by intro v hv; fin_cases hv <;> exact ⟨by decide, by decide⟩) (by decide)⟩

/-- On a well-formed width (`1 ≤ k ≤ 32`) the cross decompression loop never
fails: it produces some list, no longer than requested, whose bit consumption
is bounded by the bits still available in the stream. -/
theorem crossDecompressLoop_short (compressed : List Nat) (k : Nat) (zz : Bool)
    (hk1 : 1 ≤ k) (hk32 : k ≤ 32) :
    ∀ rem bs (bl : Int) iw, 0 ≤ bl →
      ∃ l, PackedCross.decompressLoop compressed k zz rem bs bl iw = some l ∧
        l.length ≤ rem ∧
        k * l.length ≤ bl.toNat + 32 * (compressed.length - iw) := by
  intro rem
  induction rem with
  | zero => intro bs bl iw hbl; exact ⟨[], rfl, by simp, by simp⟩
  | succ rem ih =>
    intro bs bl iw hbl
    by_cases hblk : bl < (k : Int)
    · by_cases hiw : iw < compressed.length
      · obtain ⟨l, hl, hlen, hbits⟩ :=
          ih ((bs ||| (compressed.getD iw 0 <<< bl.toNat)) >>> k) (bl + 32 - k) (iw + 1)
            (by omega)
        refine ⟨decOut zz ((bs ||| (compressed.getD iw 0 <<< bl.toNat)) &&&
          (2 ^ k - 1)) :: l, ?_, by simp; omega, ?_⟩
        · simp only [PackedCross.decompressLoop]
          rw [if_pos hblk, if_pos hiw, if_neg (by omega : ¬ bl < 0), hl]
          rfl
        · have htn : (bl + 32 - k).toNat = bl.toNat + 32 - k := by omega
          simp only [List.length_cons]
          have hx : k * (l.length + 1) = k * l.length + k := by ring
          omega
      · refine ⟨[], ?_, by simp, by simp⟩
        simp only [PackedCross.decompressLoop]
        rw [if_pos hblk, if_neg hiw]
    · obtain ⟨l, hl, hlen, hbits⟩ := ih (bs >>> k) (bl - k) iw (by omega)
      refine ⟨decOut zz (bs &&& (2 ^ k - 1)) :: l, ?_, by simp; omega, ?_⟩
      · simp only [PackedCross.decompressLoop]
        rw [if_neg hblk, hl]
        rfl
      · have htn : (bl - k).toNat = bl.toNat - k := by omega
        have hkb : k ≤ bl.toNat := by omega
        simp only [List.length_cons]
        have hx : k * (l.length + 1) = k * l.length + k := by ring
        omega

/-- Each aligned word contributes at most `j` values. -/
theorem alignedDecompressWord_short (k : Nat) (zz : Bool) (length : Nat) :
    ∀ j cur out,
      (PackedAligned.decompressWord k zz length j cur out).length ≤ out.length + j := by
  intro j
  induction j with
  | zero => intro cur out; simp [PackedAligned.decompressWord]
  | succ j ih =>
    intro cur out
    simp only [PackedAligned.decompressWord]
    by_cases hfull : length ≤ out.length
    · rw [if_pos hfull]; omega
    · rw [if_neg hfull]
      by_cases hk : k ≠ 0
      · rw [if_pos hk]
        have := ih (cur >>> k) (out ++ [decOut zz (cur &&& (2 ^ k - 1))])
        simp only [List.length_append, List.length_cons, List.length_nil] at this
        omega
      · rw [if_neg hk]
        have := ih (cur >>> k) out
        omega

/-- The aligned decompression loop yields at most `per_word` values per
stream word. -/
theorem alignedDecompressLoop_short (k p : Nat) (zz : Bool) (length : Nat) :
    ∀ (ws : List Nat) (out : List Int),
      (PackedAligned.decompressLoop k p zz length ws out).length ≤
        out.length + p * ws.length := by
  intro ws
  induction ws with
  | nil => intro out; simp [PackedAligned.decompressLoop]
  | cons w ws ih =>
    intro out
    simp only [PackedAligned.decompressLoop, List.length_cons]
    by_cases hgo : out.length < length
    · rw [if_pos hgo]
      have h1 := ih (PackedAligned.decompressWord k zz length p w out)
      have h2 := alignedDecompressWord_short k zz length p w out
      have hx : p * (ws.length + 1) = p * ws.length + p := by ring
      omega
    · rw [if_neg hgo]
      omega

theorem claim_C8_counterexample :
    (16781316 &&& 0xFF) = 4 ∧
    ((16781316 >>> 8) &&& 0xFFFF) = 16 ∧
    ([16781316, 15] : List Nat).length < 1 + (16 * 4 + 31) / 32 ∧
    OverflowPacking.decompress false [16781316, 15] [] = none :=
  ⟨by decide, by decide, by decide, by decide⟩

/-- C8 (amended): for cross and aligned mode, a stream whose header carries a
plausible width (`1 ≤ k ≤ 32`) but whose body is shorter than the header
implies decompresses without failure to a short result (fewer than `n`
values); overflow mode does **not** satisfy this (see the counterexample,
where a truncated stream holding an escape token raises an IndexError). -/
theorem claim_C8_amended :
    (∀ (zz : Bool) (hd : Nat) (ws : List Nat) (out0 : List Int),
      1 ≤ hd &&& 0xFFFF → hd &&& 0xFFFF ≤ 32 →
      ws.length < (((hd >>> 16) &&& 0xFFFF) * (hd &&& 0xFFFF) + 31) / 32 →
      ∃ res, PackedCross.decompress zz (hd :: ws) out0 = some res ∧
        res.length < (hd >>> 16) &&& 0xFFFF) ∧
    (∀ (zz : Bool) (hd : Nat) (ws : List Nat) (out0 : List Int),
      1 ≤ hd &&& 0xFFFF → hd &&& 0xFFFF ≤ 32 →
      ws.length <
        (((hd >>> 16) &&& 0xFFFF) + 32 / (hd &&& 0xFFFF) - 1) / (32 / (hd &&& 0xFFFF)) →
      ∃ res, PackedAligned.decompress zz (hd :: ws) out0 = some res ∧
        res.length < (hd >>> 16) &&& 0xFFFF) := by
  constructor
  · intro zz hd ws out0 hk1 hk32 hshort
    obtain ⟨res, hres, hlen, hbits⟩ := crossDecompressLoop_short (hd :: ws)
      (hd &&& 0xFFFF) zz hk1 hk32 ((hd >>> 16) &&& 0xFFFF) 0 0 1 (le_refl 0)
    refine ⟨res, ?_, ?_⟩
    · simp only [PackedCross.decompress]
      rw [if_neg (by simp), List.getD_cons_zero]
      exact hres
    · have hx : (hd :: ws).length = ws.length + 1 := rfl
      have hA : (hd &&& 0xFFFF) * res.length ≤ 32 * ws.length := by
        rw [hx] at hbits
        simpa using hbits
      by_contra hc
      push_neg at hc
      have hB : (hd &&& 0xFFFF) * ((hd >>> 16) &&& 0xFFFF) ≤
          (hd &&& 0xFFFF) * res.length := Nat.mul_le_mul_left _ hc
      have hD := Nat.div_mul_le_self
        (((hd >>> 16) &&& 0xFFFF) * (hd &&& 0xFFFF) + 31) 32
      have hcomm : ((hd >>> 16) &&& 0xFFFF) * (hd &&& 0xFFFF) =
          (hd &&& 0xFFFF) * ((hd >>> 16) &&& 0xFFFF) := Nat.mul_comm _ _
      omega
  · intro zz hd ws out0 hk1 hk32 hshort
    have hk0 : ¬ (hd &&& 0xFFFF) = 0 := by omega
    have hp : 1 ≤ 32 / (hd &&& 0xFFFF) := (Nat.one_le_div_iff (by omega)).mpr hk32
    refine ⟨PackedAligned.decompressLoop (hd &&& 0xFFFF) (32 / (hd &&& 0xFFFF)) zz
      ((hd >>> 16) &&& 0xFFFF) ws [], ?_, ?_⟩
    · simp only [PackedAligned.decompress, show WORD_BITS = 32 from rfl]
      rw [if_neg hk0]
    · have hb := alignedDecompressLoop_short (hd &&& 0xFFFF) (32 / (hd &&& 0xFFFF)) zz
        ((hd >>> 16) &&& 0xFFFF) ws []
      simp only [List.length_nil, Nat.zero_add] at hb
      obtain ⟨E, hE⟩ : ∃ E, (((hd >>> 16) &&& 0xFFFF) + 32 / (hd &&& 0xFFFF) - 1) /
          (32 / (hd &&& 0xFFFF)) = E + 1 :=
        ⟨(((hd >>> 16) &&& 0xFFFF) + 32 / (hd &&& 0xFFFF) - 1) /
          (32 / (hd &&& 0xFFFF)) - 1, by omega⟩
      have h1 : (32 / (hd &&& 0xFFFF)) * ws.length ≤ (32 / (hd &&& 0xFFFF)) * E :=
        Nat.mul_le_mul_left _ (by omega)
      have h4 := Nat.div_mul_le_self
        (((hd >>> 16) &&& 0xFFFF) + 32 / (hd &&& 0xFFFF) - 1) (32 / (hd &&& 0xFFFF))
      rw [hE] at h4
      have h5 : (E + 1) * (32 / (hd &&& 0xFFFF)) =
          E * (32 / (hd &&& 0xFFFF)) + 32 / (hd &&& 0xFFFF) := by ring
      have h6 : (32 / (hd &&& 0xFFFF)) * E = E * (32 / (hd &&& 0xFFFF)) :=
        Nat.mul_comm _ _
      omega

theorem claim_C8_amended_witness :
    (∃ res, PackedCross.decompress false [65537] [] = some res ∧
      res.length < (65537 >>> 16) &&& 0xFFFF) ∧
    (∃ res, PackedAligned.decompress false [65537] [] = some res ∧
      res.length < (65537 >>> 16) &&& 0xFFFF) :=
  ⟨claim_C8_amended.1 false 65537 [] [] (by decide) (by decide) (by decide),
    claim_C8_amended.2 false 65537 [] [] (by decide) (by decide) (by decide)⟩

/-- C7: in overflow-mode compress, a value (after optional ZigZag encoding)
that is at most `M - 1 = 2^small_k - 2` is written inline as its own token
— in particular the boundary value exactly `M - 1` is storable inline —
while only values strictly greater than `M - 1` produce the reserved
all-ones token `M = 2^small_k - 1` and append the value to the overflow
tail, in order of appearance.  First conjunct: the tail of the emitted
stream, after the header and the `⌈n·small_k/32⌉` body words, is exactly
the in-order list of transformed values exceeding `M - 1`.  Second
conjunct: the token the stream holds for index `i` (read back by the
source's own window extraction `OverflowPacking.tokenAt`) is the value
itself when it is at most `M - 1`, and the reserved token otherwise. -/
theorem claim_C7 (small_k : Nat) (zz : Bool) (arr : List Int) (hsk1 : 1 ≤ small_k)
    (hsk32 : small_k ≤ 32)
    (hnn : ∀ v ∈ arr, 0 ≤ (if zz then zigzag_encode v else v)) :
    (OverflowPacking.compress small_k zz arr).drop
        (1 + (arr.length * small_k + 31) / 32) =
      ((arr.map fun v => if zz then zigzag_encode v else v).filter
        fun val => (2 ^ small_k : Int) - 2 < val).map Int.toNat ∧
    ∀ i, i < arr.length →
      OverflowPacking.tokenAt (OverflowPacking.compress small_k zz arr) small_k i =
        if (if zz then zigzag_encode (arr.getD i 0) else arr.getD i 0) ≤
            (2 ^ small_k : Int) - 2 then
          (if zz then zigzag_encode (arr.getD i 0) else arr.getD i 0).toNat
        else 2 ^ small_k - 1 := by
  have hln : (ovTokens small_k zz arr).length = arr.length := by
    unfold ovTokens
    exact List.length_map _ _
  have hW : (ovTokens small_k zz arr).length * small_k ≤
      32 * ((arr.length * small_k + 31) / 32) := by
    rw [hln, show arr.length * small_k + 31 = arr.length * small_k + 32 - 1 from by omega]
    exact ceilDiv_ge _ 32 (by norm_num)
  constructor
  · rw [overflowCompress_eq small_k zz arr hnn,
      show 1 + (arr.length * small_k + 31) / 32 =
        (arr.length * small_k + 31) / 32 + 1 from by omega,
      List.drop_succ_cons, List.drop_left' (wordsOf_length _ _)]
    rfl
  · intro i hi
    rw [overflowCompress_eq small_k zz arr hnn,
      tokenAt_stream small_k _ (ovTokens small_k zz arr) (ovEscapes small_k zz arr)
        hsk1 hsk32 (ovTokens_lt small_k zz arr) ((arr.length * small_k + 31) / 32) hW i
        (by rw [hln]; exact hi)]
    exact ovTokens_getD small_k zz arr i hi

theorem claim_C7_witness :
    (OverflowPacking.compress 4 false [1, 14, 15, 1000000]).drop 2 = [15, 1000000] ∧
    OverflowPacking.tokenAt (OverflowPacking.compress 4 false [1, 14, 15, 1000000]) 4 1 =
      14 ∧
    OverflowPacking.tokenAt (OverflowPacking.compress 4 false [1, 14, 15, 1000000]) 4 2 =
      15 := by
  have h := claim_C7 4 false [1, 14, 15, 1000000] (by decide) (by decide)
    (by intro v hv; fin_cases hv <;> decide)
  refine ⟨?_, ?_, ?_⟩
  · have h1 := h.1
    rw [show (2 : Nat) =
      1 + (([1, 14, 15, 1000000] : List Int).length * 4 + 31) / 32 from by decide, h1]
    decide
  · have h2 := h.2 1 (by decide)
    rw [h2]
    decide
  · have h3 := h.2 2 (by decide)
    rw [h3]
    decide
